import Mathlib

/-!
Shallow embedding of the minesweeper engine in `src/game.rs`
(repository camper0008/boom-broom).

Modelling conventions:
* `Vec<Vec<Tile>>` becomes `List (List Tile)`.
* `u8`/`usize` become `Nat` (neighbour counts are at most 8, so no overflow
  is possible in the source; `usize` arithmetic in the source never wraps on
  the modelled inputs).
* Rust indexing `self[x][y]` panics out of bounds; every modelled internal
  access is in bounds. `getTile` totalises lookup with the sentinel
  `dftTile` (mode `Revealed`), chosen so that an out-of-bounds cell can
  never satisfy a `Hidden`-mode test; `Game.tile_at` instead returns an
  `Option`, `none` modelling the out-of-bounds panic, which is what claim
  C10 is about.
* The random number generator of `populate_mines` is made explicit as a
  list of picks (each pick in range, as `rng.random_range` guarantees); the
  rejection-sampling loop returns `none` when the pick list is exhausted
  (in Rust the loop would simply keep drawing).
* The recursive `Tiles::reveal` is defined with explicit fuel returning
  `Option`; `none` means the fuel ran out.  `revealF_fuel_sufficient`
  proves fuel `hiddenCount + 2` always suffices (the termination argument
  of claim C9), and `Tiles.reveal` is the resulting total function.
* `Instant`/`Duration` (wall-clock time) are outside the embedding;
  `Game.status` returns only the `GameStatus` component.
-/

inductive TileMistake where
  | TrippedMine : TileMistake
  | FlaggedField (c : Nat) : TileMistake
deriving DecidableEq, Repr

inductive TileContent where
  | Mine : TileContent
  | Field (n : Nat) : TileContent
  | Mistake (m : TileMistake) : TileContent
deriving DecidableEq, Repr

inductive TileMode where
  | Hidden : TileMode
  | Flagged : TileMode
  | Revealed : TileMode
deriving DecidableEq, Repr

structure Tile where
  mode : TileMode
  content : TileContent
deriving DecidableEq, Repr

abbrev Tiles := List (List Tile)

def TileContent.isFieldB : TileContent → Bool
  | .Field _ => true
  | _ => false

def TileContent.isMineB : TileContent → Bool
  | .Mine => true
  | _ => false

def TileContent.isMistakeB : TileContent → Bool
  | .Mistake _ => true
  | _ => false

def TileMode.isHiddenB : TileMode → Bool
  | .Hidden => true
  | _ => false

def TileMode.isFlaggedB : TileMode → Bool
  | .Flagged => true
  | _ => false

def TileMode.isRevealedB : TileMode → Bool
  | .Revealed => true
  | _ => false

/-- Sentinel for out-of-bounds lookups (Rust would panic there).  Its mode
is `Revealed` so that no out-of-bounds cell ever passes a `Hidden` test. -/
def dftTile : Tile := ⟨.Revealed, .Field 0⟩

def getTile (t : Tiles) (x y : Nat) : Tile := (t.getD x []).getD y dftTile

def setTile (t : Tiles) (x y : Nat) (tile : Tile) : Tiles :=
  t.set x ((t.getD x []).set y tile)

def setMode (t : Tiles) (x y : Nat) (m : TileMode) : Tiles :=
  setTile t x y ⟨m, (getTile t x y).content⟩

def setContent (t : Tiles) (x y : Nat) (c : TileContent) : Tiles :=
  setTile t x y ⟨(getTile t x y).mode, c⟩

/-- `Tiles::neighbours`: the Moore neighbours of `(x, y)`, edge-clipped
exactly as in the source (offset filter, then coordinate shift). -/
def Tiles.neighbours (t : Tiles) (x y : Nat) : List (Nat × Nat) :=
  (((([-1, 0, 1] : List Int).flatMap fun dx =>
      ([-1, 0, 1] : List Int).map fun dy => (dx, dy)).filter fun off =>
        decide (¬((off.1 = 0 ∧ off.2 = 0) ∨ (off.1 < 0 ∧ x = 0) ∨ (off.2 < 0 ∧ y = 0) ∨
          (0 < off.1 ∧ x = t.length - 1) ∨
          (0 < off.2 ∧ y = (t.getD x []).length - 1)))).map
    fun off => (((x : Int) + off.1).toNat, ((y : Int) + off.2).toNat))

/-- Number of `Flagged` neighbours, as counted in the chord branch of
`Tiles::reveal`. -/
def flaggedNb (t : Tiles) (x y : Nat) : Nat :=
  ((Tiles.neighbours t x y).filter fun p => (getTile t p.1 p.2).mode.isFlaggedB).length

/-- Number of `Mine`-content neighbours, as counted in the numbering pass of
`Tiles::new`. -/
def mineNb (t : Tiles) (x y : Nat) : Nat :=
  ((Tiles.neighbours t x y).filter fun p => (getTile t p.1 p.2).content.isMineB).length

def hiddenCount (t : Tiles) : Nat := (t.map fun row => row.countP fun tile => tile.mode.isHiddenB).sum

def countMines (t : Tiles) : Nat := (t.map fun row => row.countP fun tile => tile.content.isMineB).sum

def contentsGrid (t : Tiles) : List (List TileContent) := t.map (List.map Tile.content)

/-- The `for nb_pos in self.neighbours(x, y)` loop at the end of
`Tiles::reveal`: step into each still-`Hidden` position with the supplied
reveal function, skipping the others. -/
def cascadeList (rv : Tiles → Nat → Nat → Option Tiles) : Tiles → List (Nat × Nat) → Option Tiles
  | b, [] => some b
  | b, p :: rest =>
    match (getTile b p.1 p.2).mode with
    | .Hidden =>
      match rv b p.1 p.2 with
      | none => none
      | some b2 => cascadeList rv b2 rest
    | _ => cascadeList rv b rest

/-- `Tiles::reveal`, with explicit fuel for the recursion (`none` = fuel
exhausted).  The `Revealed` branch with non-`Field` content is
`unreachable!()` in the source; it is modelled as a no-op (see claim C8). -/
def revealF : Nat → Tiles → Nat → Nat → Option Tiles
  | 0, _, _, _ => none
  | fuel + 1, b, x, y =>
    let t := getTile b x y
    match t.mode with
    | .Hidden =>
      let b' := setMode b x y .Revealed
      match t.content with
      | .Field 0 => cascadeList (revealF fuel) b' (Tiles.neighbours b' x y)
      | _ => some b'
    | .Flagged => some b
    | .Revealed =>
      match t.content with
      | .Field n =>
        if flaggedNb b x y = n then cascadeList (revealF fuel) b (Tiles.neighbours b x y)
        else some b
      | _ => some b

/-- `Tiles::reveal` as a total function: fuel `hiddenCount b + 2` always
suffices (`revealF_fuel_sufficient`). -/
def Tiles.reveal (b : Tiles) (x y : Nat) : Tiles :=
  (revealF (hiddenCount b + 2) b x y).getD b

def Tiles.new_blank (width height : Nat) : Tiles :=
  (List.range width).map fun _ => (List.range height).map fun _ =>
    ({ mode := .Hidden, content := .Field 0 } : Tile)

/-- One iteration of the inner `loop` of `Tiles::populate_mines`: consume
picks until one names a non-mine cell different from `ignore`, place a mine
there.  `none` models running out of randomness. -/
def placeOne (b : Tiles) (ignore : Nat × Nat) : List (Nat × Nat) → Option (Tiles × List (Nat × Nat))
  | [] => none
  | p :: rest =>
    if p = ignore then placeOne b ignore rest
    else if (getTile b p.1 p.2).content = .Mine then placeOne b ignore rest
    else some (setContent b p.1 p.2 .Mine, rest)

/-- `Tiles::populate_mines`: place `mine_count` mines by rejection sampling
over the explicit pick list. -/
def Tiles.populate_mines (b : Tiles) : Nat → (Nat × Nat) → List (Nat × Nat) → Option Tiles
  | 0, _, _ => some b
  | mc + 1, ignore, picks =>
    match placeOne b ignore picks with
    | none => none
    | some (b2, rest) => Tiles.populate_mines b2 mc ignore rest

/-- Body of the numbering double loop of `Tiles::new`: skip non-`Field`
cells, otherwise store the current Moore-neighbourhood mine count. -/
def numberCell (t : Tiles) (x y : Nat) : Tiles :=
  if (getTile t x y).content.isFieldB then setContent t x y (.Field (mineNb t x y)) else t

/-- The row-major cell order of the `for x / for y` numbering loops. -/
def cellList (width height : Nat) : List (Nat × Nat) :=
  (List.range width).flatMap fun x => (List.range height).map fun y => (x, y)

def numberPass (t : Tiles) (width height : Nat) : Tiles :=
  (cellList width height).foldl (fun t p => numberCell t p.1 p.2) t

/-- `Tiles::new`: assert the mine budget, build the blank grid, place mines,
run the numbering pass, then perform the initial reveal at the starting
position.  `none` models the `assert!` panic or exhausted randomness. -/
def Tiles.new (size : Nat × Nat) (starting_position : Nat × Nat) (mine_count : Nat)
    (picks : List (Nat × Nat)) : Option Tiles :=
  if size.1 * size.2 > mine_count then
    (Tiles.populate_mines (Tiles.new_blank size.1 size.2) mine_count starting_position picks).map
      fun tb =>
        Tiles.reveal (numberPass tb size.1 size.2) starting_position.1 starting_position.2
  else none

inductive GameState where
  | Blank : GameState
  | Ongoing (tiles : Tiles) : GameState
  | Finished (tiles : Tiles) : GameState
deriving DecidableEq, Repr

structure Game where
  cursor : Nat × Nat
  size : Nat × Nat
  state : GameState
  mine_count : Nat
deriving DecidableEq, Repr

inductive CursorDirection where
  | Up : CursorDirection
  | Left : CursorDirection
  | Right : CursorDirection
  | Down : CursorDirection
deriving DecidableEq, Repr

inductive GameStatus where
  | Initial : GameStatus
  | Won : GameStatus
  | Lost : GameStatus
  | Ongoing : GameStatus
deriving DecidableEq, Repr

def Game.new (size : Nat × Nat) (mine_count : Nat) : Game :=
  { cursor := (0, 0), size := size, state := .Blank, mine_count := mine_count }

/-- `Game::status`, without the `Duration` component (wall-clock time is
outside the embedding): a finished match is `Lost` iff some tile holds
`Mistake` content. -/
def Game.status (g : Game) : GameStatus :=
  match g.state with
  | .Blank => .Initial
  | .Ongoing _ => .Ongoing
  | .Finished tiles =>
    if tiles.flatten.any (fun tile => tile.content.isMistakeB) then .Lost else .Won

/-- `Game::tile_at`: the synthetic `Hidden`/`Field 0` placeholder while no
board exists; otherwise `tiles[x][y]`, whose out-of-bounds panic is
modelled as `none`. -/
def Game.tile_at (g : Game) (x y : Nat) : Option Tile :=
  match g.state with
  | .Blank => some ⟨.Hidden, .Field 0⟩
  | .Ongoing tiles | .Finished tiles => (tiles.get? x).bind fun row => row.get? y

/-- The per-tile case analysis of the `Game::finish_game` sweep.  The
`Mistake` arm is `unreachable!()` in the source and modelled as a no-op
(see claim C8). -/
def sweepTile (tile : Tile) : Tile :=
  match tile.mode, tile.content with
  | .Flagged, .Field c => { tile with content := .Mistake (.FlaggedField c) }
  | .Flagged, .Mine => tile
  | .Revealed, .Field _ => tile
  | .Hidden, .Field _ => tile
  | .Revealed, .Mine => ⟨.Revealed, .Mistake .TrippedMine⟩
  | .Hidden, .Mine => { tile with mode := .Revealed }
  | _, .Mistake _ => tile

/-- `Game::finish_game` restricted to its board effect (the elapsed-time
snapshot is outside the embedding). -/
def finishSweep (tiles : Tiles) : Tiles := tiles.map (List.map sweepTile)

/-- The `has_won` predicate of `Game::maybe_finish`. -/
def hasWon (tiles : Tiles) : Bool :=
  tiles.flatten.all fun tile => !tile.content.isFieldB || tile.mode.isRevealedB

/-- The `has_lost` predicate of `Game::maybe_finish`. -/
def hasLost (tiles : Tiles) : Bool :=
  tiles.flatten.any fun tile => tile.mode.isRevealedB && tile.content.isMineB

/-- `Game::maybe_finish`.  The non-`Ongoing` case is `unreachable!()` in the
source (it is only called right after establishing `Ongoing`); modelled as a
no-op. -/
def Game.maybe_finish (g : Game) : Game :=
  match g.state with
  | .Ongoing tiles =>
    if hasWon tiles || hasLost tiles then { g with state := .Finished (finishSweep tiles) } else g
  | _ => g

/-- `Game::move_on`: start a match from `Blank` (board anchored at the
cursor), or reset a `Finished` match to `Blank`.  If `Tiles.new` cannot
complete (assert failure or exhausted picks — both non-returning in Rust)
no transition happens. -/
def Game.move_on (g : Game) (picks : List (Nat × Nat)) : Game :=
  match g.state with
  | .Blank =>
    match Tiles.new g.size g.cursor g.mine_count picks with
    | some tiles => { g with state := .Ongoing tiles }
    | none => g
  | .Finished _ => { g with state := .Blank }
  | .Ongoing _ => g

/-- The mode toggle performed by `Game::flag` on the cursor tile. -/
def toggleFlag : TileMode → TileMode
  | .Hidden => .Flagged
  | .Flagged => .Hidden
  | .Revealed => .Revealed

/-- `Game::flag`: delegate to `move_on` unless a match is in progress, in
which case toggle the cursor tile's mode (and nothing else — in particular
`maybe_finish` is not called; see claim C1). -/
def Game.flag (g : Game) (picks : List (Nat × Nat)) : Game :=
  match g.state with
  | .Ongoing tiles =>
    { g with
      state := .Ongoing
        (setMode tiles g.cursor.1 g.cursor.2 (toggleFlag (getTile tiles g.cursor.1 g.cursor.2).mode)) }
  | _ => g.move_on picks

/-- `Game::reveal`: delegate to `move_on` unless a match is in progress, in
which case reveal at the cursor and re-evaluate terminal conditions. -/
def Game.reveal (g : Game) (picks : List (Nat × Nat)) : Game :=
  match g.state with
  | .Ongoing tiles =>
    Game.maybe_finish { g with state := .Ongoing (Tiles.reveal tiles g.cursor.1 g.cursor.2) }
  | _ => g.move_on picks

/-- `Game::move_cursor`: saturating step then clamp into bounds. -/
def Game.move_cursor (g : Game) (direction : CursorDirection) : Game :=
  let c :=
    match direction with
    | .Up => (g.cursor.1, g.cursor.2 - 1)
    | .Down => (g.cursor.1, g.cursor.2 + 1)
    | .Left => (g.cursor.1 - 1, g.cursor.2)
    | .Right => (g.cursor.1 + 1, g.cursor.2)
  { g with cursor := (min c.1 (g.size.1 - 1), min c.2 (g.size.2 - 1)) }

/-- The states reachable from `Game::new` through the public operations,
for every outcome of the randomness. -/
inductive Reachable : Game → Prop where
  | new (size : Nat × Nat) (mine_count : Nat) : Reachable (Game.new size mine_count)
  | move {g : Game} (d : CursorDirection) : Reachable g → Reachable (g.move_cursor d)
  | flag {g : Game} (picks : List (Nat × Nat)) : Reachable g → Reachable (g.flag picks)
  | reveal {g : Game} (picks : List (Nat × Nat)) : Reachable g → Reachable (g.reveal picks)

/-! ### List helpers -/

lemma getD_set_ne {α : Type} (l : List α) (i j : Nat) (a d : α) (h : i ≠ j) :
    (l.set i a).getD j d = l.getD j d := by
  by_cases hj : j < l.length
  · rw [List.getD_eq_getElem _ _ (by simpa using hj), List.getD_eq_getElem _ _ hj,
      List.getElem_set_ne h]
  · rw [List.getD_eq_default _ _ (by simpa using Nat.le_of_not_lt hj),
      List.getD_eq_default _ _ (Nat.le_of_not_lt hj)]

lemma getD_set_self {α : Type} (l : List α) (i : Nat) (a d : α) (h : i < l.length) :
    (l.set i a).getD i d = a := by
  rw [List.getD_eq_getElem _ _ (by simpa using h), List.getElem_set_self]

lemma set_getD_self {α : Type} (l : List α) (i : Nat) (d : α) (h : i < l.length) :
    l.set i (l.getD i d) = l := by
  apply List.ext_getElem (by simp)
  intro j h1 h2
  by_cases hij : i = j
  · subst hij
    rw [List.getElem_set_self, List.getD_eq_getElem _ _ h]
  · rw [List.getElem_set_ne hij]

lemma getD_map {α β : Type} (f : α → β) (l : List α) (i : Nat) (d : α) :
    (l.map f).getD i (f d) = f (l.getD i d) := by
  by_cases hi : i < l.length
  · rw [List.getD_eq_getElem _ _ (by simpa using hi), List.getD_eq_getElem _ _ hi,
      List.getElem_map]
  · rw [List.getD_eq_default _ _ (by simpa using Nat.le_of_not_lt hi),
      List.getD_eq_default _ _ (Nat.le_of_not_lt hi)]

lemma countP_set_add {α : Type} (p : α → Bool) (l : List α) (i : Nat) (a : α)
    (h : i < l.length) :
    (l.set i a).countP p + (if p (l.getD i a) then 1 else 0) =
      l.countP p + (if p a then 1 else 0) := by
  induction l generalizing i with
  | nil => simp at h
  | cons hd tl ih =>
    cases i with
    | zero => simp [List.countP_cons]; omega
    | succ i =>
      simp only [List.set, List.countP_cons, List.getD_cons_succ]
      have := ih i (by simpa using Nat.lt_of_succ_lt_succ h)
      omega

lemma sum_set_add (l : List Nat) (i : Nat) (n : Nat) (h : i < l.length) :
    (l.set i n).sum + l.getD i n = l.sum + n := by
  induction l generalizing i with
  | nil => simp at h
  | cons hd tl ih =>
    cases i with
    | zero => simp [List.sum_cons]; omega
    | succ i =>
      simp only [List.set, List.sum_cons, List.getD_cons_succ]
      have := ih i (by simpa using Nat.lt_of_succ_lt_succ h)
      omega

/-! ### Grid lookup and update -/

lemma mode_hidden_bounds {t : Tiles} {x y : Nat} (h : (getTile t x y).mode = .Hidden) :
    x < t.length ∧ y < (t.getD x []).length := by
  constructor
  · by_contra hx
    rw [getTile, List.getD_eq_default _ _ (Nat.le_of_not_lt hx)] at h
    simp [dftTile] at h
  · by_contra hy
    rw [getTile, List.getD_eq_default _ _ (Nat.le_of_not_lt hy)] at h
    simp [dftTile] at h

lemma getTile_setTile_same {t : Tiles} {x y : Nat} (tile : Tile)
    (h1 : x < t.length) (h2 : y < (t.getD x []).length) :
    getTile (setTile t x y tile) x y = tile := by
  rw [getTile, setTile, getD_set_self _ _ _ _ h1, getD_set_self _ _ _ _ h2]

lemma getTile_setTile_other {t : Tiles} {x y u v : Nat} (tile : Tile)
    (h : ¬(u = x ∧ v = y)) :
    getTile (setTile t x y tile) u v = getTile t u v := by
  rw [getTile, setTile, getTile]
  by_cases hux : u = x
  · subst hux
    have hv : v ≠ y := fun hv => h ⟨rfl, hv⟩
    by_cases hx : u < t.length
    · rw [getD_set_self _ _ _ _ hx, getD_set_ne _ _ _ _ _ (Ne.symm hv)]
    · rw [List.set_eq_of_length_le (Nat.le_of_not_lt hx)]
  · rw [getD_set_ne _ _ _ _ _ fun hh => hux hh.symm]

lemma length_setTile (t : Tiles) (x y : Nat) (tile : Tile) :
    (setTile t x y tile).length = t.length := by
  rw [setTile, List.length_set]

lemma getD_length_setTile (t : Tiles) (x y u : Nat) (tile : Tile) :
    ((setTile t x y tile).getD u []).length = (t.getD u []).length := by
  rw [setTile]
  by_cases hux : u = x
  · subst hux
    by_cases hx : u < t.length
    · rw [getD_set_self _ _ _ _ hx, List.length_set]
    · rw [List.set_eq_of_length_le (Nat.le_of_not_lt hx)]
  · rw [getD_set_ne _ _ _ _ _ fun hh => hux hh.symm]

lemma contentsGrid_setMode (t : Tiles) (x y : Nat) (m : TileMode) :
    contentsGrid (setMode t x y m) = contentsGrid t := by
  rw [setMode, setTile, contentsGrid, contentsGrid]
  by_cases hx : x < t.length
  · rw [List.map_set]
    have hrow : List.map Tile.content ((t.getD x []).set y ⟨m, (getTile t x y).content⟩) =
        List.map Tile.content (t.getD x []) := by
      by_cases hy : y < (t.getD x []).length
      · rw [List.map_set]
        have : (getTile t x y).content =
            (List.map Tile.content (t.getD x [])).getD y dftTile.content := by
          rw [getTile, getD_map]
        rw [this, set_getD_self _ _ _ (by simpa using hy)]
      · rw [List.set_eq_of_length_le (Nat.le_of_not_lt hy)]
    rw [hrow]
    have : List.map Tile.content (t.getD x []) =
        (List.map (List.map Tile.content) t).getD x [] := by
      have := getD_map (List.map Tile.content) t x []
      simpa using this.symm
    rw [this, set_getD_self _ _ _ (by simpa using hx)]
  · rw [List.set_eq_of_length_le (Nat.le_of_not_lt hx)]

lemma length_of_contentsGrid_eq {t t' : Tiles} (h : contentsGrid t = contentsGrid t') :
    t.length = t'.length := by
  have := congrArg List.length h
  simpa [contentsGrid] using this

lemma getD_contentsGrid (t : Tiles) (x : Nat) :
    (contentsGrid t).getD x [] = List.map Tile.content (t.getD x []) := by
  have := getD_map (List.map Tile.content) t x []
  simpa [contentsGrid] using this

lemma getD_length_of_contentsGrid_eq {t t' : Tiles} (h : contentsGrid t = contentsGrid t')
    (x : Nat) : (t.getD x []).length = (t'.getD x []).length := by
  have h1 : List.map Tile.content (t.getD x []) = List.map Tile.content (t'.getD x []) := by
    rw [← getD_contentsGrid, ← getD_contentsGrid, h]
  have := congrArg List.length h1
  simpa using this

lemma getTile_content_of_contentsGrid_eq {t t' : Tiles} (h : contentsGrid t = contentsGrid t')
    (x y : Nat) : (getTile t x y).content = (getTile t' x y).content := by
  have e1 : (getTile t x y).content =
      ((contentsGrid t).getD x []).getD y dftTile.content := by
    rw [getTile, ← getD_map Tile.content, getD_contentsGrid]
  have e2 : (getTile t' x y).content =
      ((contentsGrid t').getD x []).getD y dftTile.content := by
    rw [getTile, ← getD_map Tile.content, getD_contentsGrid]
  rw [e1, e2, h]

lemma neighbours_congr {t t' : Tiles} (x y : Nat) (hl : t.length = t'.length)
    (hr : (t.getD x []).length = (t'.getD x []).length) :
    Tiles.neighbours t x y = Tiles.neighbours t' x y := by
  rw [Tiles.neighbours, Tiles.neighbours, hl, hr]

lemma neighbours_of_contentsGrid_eq {t t' : Tiles} (h : contentsGrid t = contentsGrid t')
    (x y : Nat) : Tiles.neighbours t x y = Tiles.neighbours t' x y :=
  neighbours_congr x y (length_of_contentsGrid_eq h) (getD_length_of_contentsGrid_eq h x)

lemma mineNb_of_contentsGrid_eq {t t' : Tiles} (h : contentsGrid t = contentsGrid t')
    (x y : Nat) : mineNb t x y = mineNb t' x y := by
  rw [mineNb, mineNb, neighbours_of_contentsGrid_eq h x y]
  congr 1
  apply List.filter_congr
  intro p _
  rw [getTile_content_of_contentsGrid_eq h]

lemma countMines_eq_contentsGrid (t : Tiles) :
    countMines t = ((contentsGrid t).map fun row => row.countP TileContent.isMineB).sum := by
  rw [countMines, contentsGrid, List.map_map]
  congr 1
  apply List.map_congr_left
  intro row _
  show List.countP (fun tile => tile.content.isMineB) row =
    List.countP TileContent.isMineB (List.map Tile.content row)
  rw [List.countP_map]
  rfl

lemma countMines_of_contentsGrid_eq {t t' : Tiles} (h : contentsGrid t = contentsGrid t') :
    countMines t = countMines t' := by
  rw [countMines_eq_contentsGrid, countMines_eq_contentsGrid, h]

lemma hiddenCount_pos_of_hidden {t : Tiles} {x y : Nat}
    (h : (getTile t x y).mode = .Hidden) :
    hiddenCount (setMode t x y .Revealed) + 1 = hiddenCount t := by
  obtain ⟨hx, hy⟩ := mode_hidden_bounds h
  rw [hiddenCount, hiddenCount, setMode, setTile, List.map_set]
  have hrow : ((t.getD x []).set y ⟨TileMode.Revealed, (getTile t x y).content⟩).countP
      (fun tile => tile.mode.isHiddenB) + 1 =
      (t.getD x []).countP fun tile => tile.mode.isHiddenB := by
    have := countP_set_add (fun tile => tile.mode.isHiddenB) (t.getD x []) y
      ⟨TileMode.Revealed, (getTile t x y).content⟩ hy
    have hget : (t.getD x []).getD y (⟨TileMode.Revealed, (getTile t x y).content⟩ : Tile) =
        getTile t x y := by
      rw [getTile, List.getD_eq_getElem _ _ hy, List.getD_eq_getElem _ _ hy]
    rw [hget] at this
    simp only [h, TileMode.isHiddenB, TileMode.isRevealedB] at this
    simpa using this
  have hsum := sum_set_add (t.map fun row => row.countP fun tile => tile.mode.isHiddenB) x
    (((t.getD x []).set y ⟨TileMode.Revealed, (getTile t x y).content⟩).countP
      fun tile => tile.mode.isHiddenB) (by simpa using hx)
  have hgetrow : (t.map fun row => row.countP fun tile => tile.mode.isHiddenB).getD x
      (((t.getD x []).set y ⟨TileMode.Revealed, (getTile t x y).content⟩).countP
        fun tile => tile.mode.isHiddenB) =
      (t.getD x []).countP fun tile => tile.mode.isHiddenB := by
    rw [List.getD_eq_getElem _ _ (by simpa using hx), List.getElem_map,
      List.getD_eq_getElem _ _ hx]
  rw [hgetrow] at hsum
  omega

/-! ### The reveal transition relation: contents never change, modes only go
`Hidden` to `Revealed`. -/

def revealRel (b r : Tiles) : Prop :=
  contentsGrid r = contentsGrid b ∧
    ∀ u v, (getTile r u v).mode = (getTile b u v).mode ∨
      ((getTile b u v).mode = .Hidden ∧ (getTile r u v).mode = .Revealed)

lemma revealRel_refl (b : Tiles) : revealRel b b := ⟨rfl, fun _ _ => Or.inl rfl⟩

lemma revealRel_trans {a b c : Tiles} (h1 : revealRel a b) (h2 : revealRel b c) :
    revealRel a c := by
  refine ⟨h2.1.trans h1.1, fun u v => ?_⟩
  rcases h2.2 u v with h | h
  · rcases h1.2 u v with h' | h'
    · exact Or.inl (h.trans h')
    · exact Or.inr ⟨h'.1, h.trans h'.2⟩
  · rcases h1.2 u v with h' | h'
    · exact Or.inr ⟨h'.symm.trans h.1, h.2⟩
    · exact absurd (h'.2.symm.trans h.1) (by simp)

lemma revealRel_setMode {b : Tiles} {x y : Nat} (h : (getTile b x y).mode = .Hidden) :
    revealRel b (setMode b x y .Revealed) := by
  obtain ⟨hx, hy⟩ := mode_hidden_bounds h
  refine ⟨contentsGrid_setMode b x y .Revealed, fun u v => ?_⟩
  by_cases huv : u = x ∧ v = y
  · obtain ⟨rfl, rfl⟩ := huv
    right
    refine ⟨h, ?_⟩
    rw [setMode, getTile_setTile_same _ hx hy]
  · left
    rw [setMode, getTile_setTile_other _ huv]

lemma revealRel_mode_revealed {b r : Tiles} {u v : Nat} (h : revealRel b r)
    (hm : (getTile b u v).mode = .Revealed) : (getTile r u v).mode = .Revealed := by
  rcases h.2 u v with h' | h'
  · rw [h', hm]
  · rw [hm] at h'
    exact absurd h'.1 (by simp)

/-! ### Unfolding equations for `revealF` and `cascadeList` -/

lemma cascadeList_nil (rv : Tiles → Nat → Nat → Option Tiles) (b : Tiles) :
    cascadeList rv b [] = some b := rfl

lemma cascadeList_cons (rv : Tiles → Nat → Nat → Option Tiles) (b : Tiles)
    (p : Nat × Nat) (rest : List (Nat × Nat)) :
    cascadeList rv b (p :: rest) =
      match (getTile b p.1 p.2).mode with
      | .Hidden =>
        match rv b p.1 p.2 with
        | none => none
        | some b2 => cascadeList rv b2 rest
      | _ => cascadeList rv b rest := rfl

lemma revealF_succ (f : Nat) (b : Tiles) (x y : Nat) :
    revealF (f + 1) b x y =
      match (getTile b x y).mode with
      | .Hidden =>
        match (getTile b x y).content with
        | .Field 0 =>
          cascadeList (revealF f) (setMode b x y .Revealed)
            (Tiles.neighbours (setMode b x y .Revealed) x y)
        | _ => some (setMode b x y .Revealed)
      | .Flagged => some b
      | .Revealed =>
        match (getTile b x y).content with
        | .Field n =>
          if flaggedNb b x y = n then cascadeList (revealF f) b (Tiles.neighbours b x y)
          else some b
        | _ => some b := rfl

lemma cascadeList_rel {rv : Tiles → Nat → Nat → Option Tiles}
    (hrv : ∀ b x y r, rv b x y = some r → revealRel b r) :
    ∀ (ps : List (Nat × Nat)) (b r : Tiles), cascadeList rv b ps = some r → revealRel b r := by
  intro ps
  induction ps with
  | nil =>
    intro b r h
    rw [cascadeList_nil] at h
    cases h
    exact revealRel_refl _
  | cons p rest ih =>
    intro b r h
    rw [cascadeList_cons] at h
    cases hm : (getTile b p.1 p.2).mode with
    | Hidden =>
      simp only [hm] at h
      cases hrv2 : rv b p.1 p.2 with
      | none => rw [hrv2] at h; exact absurd h (by simp)
      | some b2 =>
        rw [hrv2] at h
        exact revealRel_trans (hrv _ _ _ _ hrv2) (ih _ _ h)
    | Flagged => simp only [hm] at h; exact ih _ _ h
    | Revealed => simp only [hm] at h; exact ih _ _ h

lemma revealF_rel : ∀ (f : Nat) (b : Tiles) (x y : Nat) (r : Tiles),
    revealF f b x y = some r → revealRel b r := by
  intro f
  induction f with
  | zero => intro b x y r h; simp [revealF] at h
  | succ f ih =>
    intro b x y r h
    rw [revealF_succ] at h
    cases hm : (getTile b x y).mode with
    | Hidden =>
      simp only [hm] at h
      have hrel : revealRel b (setMode b x y .Revealed) := revealRel_setMode hm
      cases hc : (getTile b x y).content with
      | Field n =>
        cases n with
        | zero =>
          simp only [hc] at h
          exact revealRel_trans hrel (cascadeList_rel ih _ _ _ h)
        | succ n => simp only [hc] at h; cases h; exact hrel
      | Mine => simp only [hc] at h; cases h; exact hrel
      | Mistake m => simp only [hc] at h; cases h; exact hrel
    | Flagged => simp only [hm] at h; cases h; exact revealRel_refl _
    | Revealed =>
      simp only [hm] at h
      cases hc : (getTile b x y).content with
      | Field n =>
        simp only [hc] at h
        by_cases hf : flaggedNb b x y = n
        · rw [if_pos hf] at h; exact cascadeList_rel ih _ _ _ h
        · rw [if_neg hf] at h; cases h; exact revealRel_refl _
      | Mine => simp only [hc] at h; cases h; exact revealRel_refl _
      | Mistake m => simp only [hc] at h; cases h; exact revealRel_refl _

lemma cascadeList_adequate {f : Nat}
    (h1 : ∀ b x y, (getTile b x y).mode = .Hidden → hiddenCount b < f →
      ∃ r, revealF f b x y = some r ∧ hiddenCount r < hiddenCount b) :
    ∀ (ps : List (Nat × Nat)) (b : Tiles), hiddenCount b < f →
      ∃ r, cascadeList (revealF f) b ps = some r ∧ hiddenCount r ≤ hiddenCount b := by
  intro ps
  induction ps with
  | nil => intro b _; exact ⟨b, cascadeList_nil _ b, le_refl _⟩
  | cons p rest ih =>
    intro b hb
    rw [cascadeList_cons]
    cases hm : (getTile b p.1 p.2).mode with
    | Hidden =>
      obtain ⟨b2, hb2, hlt⟩ := h1 b p.1 p.2 hm hb
      obtain ⟨r, hr, hle⟩ := ih b2 (Nat.lt_trans hlt hb)
      refine ⟨r, ?_, Nat.le_trans hle (Nat.le_of_lt hlt)⟩
      simp only [hb2]
      exact hr
    | Flagged =>
      obtain ⟨r, hr, hle⟩ := ih b hb
      exact ⟨r, by simp only; exact hr, hle⟩
    | Revealed =>
      obtain ⟨r, hr, hle⟩ := ih b hb
      exact ⟨r, by simp only; exact hr, hle⟩

lemma revealF_adequate : ∀ (f : Nat),
    (∀ b x y, (getTile b x y).mode = .Hidden → hiddenCount b < f →
      ∃ r, revealF f b x y = some r ∧ hiddenCount r < hiddenCount b) ∧
    (∀ b x y, hiddenCount b + 1 < f →
      ∃ r, revealF f b x y = some r ∧ hiddenCount r ≤ hiddenCount b) := by
  intro f
  induction f with
  | zero =>
    exact ⟨fun b x y _ h => absurd h (Nat.not_lt_zero _),
      fun b x y h => absurd h (Nat.not_lt_zero _)⟩
  | succ f ih =>
    have part1 : ∀ b x y, (getTile b x y).mode = .Hidden → hiddenCount b < f + 1 →
        ∃ r, revealF (f + 1) b x y = some r ∧ hiddenCount r < hiddenCount b := by
      intro b x y hm hb
      have hcnt := hiddenCount_pos_of_hidden hm
      cases hc : (getTile b x y).content with
      | Field n =>
        cases n with
        | zero =>
          obtain ⟨r, hr, hle⟩ := cascadeList_adequate ih.1
            (Tiles.neighbours (setMode b x y .Revealed) x y) (setMode b x y .Revealed)
            (by omega)
          refine ⟨r, ?_, by omega⟩
          rw [revealF_succ]
          simp only [hm, hc]
          exact hr
        | succ n =>
          exact ⟨setMode b x y .Revealed, by rw [revealF_succ]; simp only [hm, hc], by omega⟩
      | Mine =>
        exact ⟨setMode b x y .Revealed, by rw [revealF_succ]; simp only [hm, hc], by omega⟩
      | Mistake m =>
        exact ⟨setMode b x y .Revealed, by rw [revealF_succ]; simp only [hm, hc], by omega⟩
    have part2 : ∀ b x y, hiddenCount b + 1 < f + 1 →
        ∃ r, revealF (f + 1) b x y = some r ∧ hiddenCount r ≤ hiddenCount b := by
      intro b x y hb
      cases hm : (getTile b x y).mode with
      | Hidden =>
        obtain ⟨r, hr, hlt⟩ := part1 b x y hm (by omega)
        exact ⟨r, hr, Nat.le_of_lt hlt⟩
      | Flagged => exact ⟨b, by rw [revealF_succ]; simp only [hm], le_refl _⟩
      | Revealed =>
        cases hc : (getTile b x y).content with
        | Field n =>
          by_cases hf : flaggedNb b x y = n
          · obtain ⟨r, hr, hle⟩ := cascadeList_adequate ih.1 (Tiles.neighbours b x y) b
              (by omega)
            refine ⟨r, ?_, hle⟩
            rw [revealF_succ]
            simp only [hm, hc, if_pos hf]
            exact hr
          · exact ⟨b, by rw [revealF_succ]; simp only [hm, hc, if_neg hf], le_refl _⟩
        | Mine => exact ⟨b, by rw [revealF_succ]; simp only [hm, hc], le_refl _⟩
        | Mistake m => exact ⟨b, by rw [revealF_succ]; simp only [hm, hc], le_refl _⟩
    exact ⟨part1, part2⟩

/-- The termination bound: fuel `hiddenCount b + 2` always completes the
recursive reveal. -/
lemma revealF_fuel_sufficient (b : Tiles) (x y : Nat) :
    revealF (hiddenCount b + 2) b x y = some (Tiles.reveal b x y) := by
  obtain ⟨r, hr, _⟩ := (revealF_adequate (hiddenCount b + 2)).2 b x y (by omega)
  rw [Tiles.reveal, hr]
  rfl

lemma hiddenCount_reveal_le (b : Tiles) (x y : Nat) :
    hiddenCount (Tiles.reveal b x y) ≤ hiddenCount b := by
  obtain ⟨r, hr, hle⟩ := (revealF_adequate (hiddenCount b + 2)).2 b x y (by omega)
  have h2 := revealF_fuel_sufficient b x y
  rw [hr] at h2
  cases h2
  exact hle

lemma hiddenCount_reveal_lt {b : Tiles} {x y : Nat} (h : (getTile b x y).mode = .Hidden) :
    hiddenCount (Tiles.reveal b x y) < hiddenCount b := by
  obtain ⟨r, hr, hlt⟩ := (revealF_adequate (hiddenCount b + 2)).1 b x y h (by omega)
  have h2 := revealF_fuel_sufficient b x y
  rw [hr] at h2
  cases h2
  exact hlt

lemma revealRel_reveal (b : Tiles) (x y : Nat) : revealRel b (Tiles.reveal b x y) :=
  revealF_rel _ _ _ _ _ (revealF_fuel_sufficient b x y)

lemma contentsGrid_reveal (b : Tiles) (x y : Nat) :
    contentsGrid (Tiles.reveal b x y) = contentsGrid b :=
  (revealRel_reveal b x y).1

lemma cascadeList_mono {rv rv2 : Tiles → Nat → Nat → Option Tiles}
    (h : ∀ b x y r, rv b x y = some r → rv2 b x y = some r) :
    ∀ (ps : List (Nat × Nat)) (b r : Tiles),
      cascadeList rv b ps = some r → cascadeList rv2 b ps = some r := by
  intro ps
  induction ps with
  | nil => intro b r hh; rwa [cascadeList_nil] at hh ⊢
  | cons p rest ih =>
    intro b r hh
    rw [cascadeList_cons] at hh
    rw [cascadeList_cons]
    cases hm : (getTile b p.1 p.2).mode with
    | Hidden =>
      simp only [hm] at hh ⊢
      cases hrv : rv b p.1 p.2 with
      | none => rw [hrv] at hh; exact absurd hh (by simp)
      | some b2 =>
        rw [hrv] at hh
        rw [h _ _ _ _ hrv]
        exact ih _ _ hh
    | Flagged => simp only [hm] at hh ⊢; exact ih _ _ hh
    | Revealed => simp only [hm] at hh ⊢; exact ih _ _ hh

lemma revealF_mono : ∀ (f : Nat) (b : Tiles) (x y : Nat) (r : Tiles),
    revealF f b x y = some r → revealF (f + 1) b x y = some r := by
  intro f
  induction f with
  | zero => intro b x y r h; simp [revealF] at h
  | succ f ih =>
    intro b x y r h
    rw [revealF_succ] at h
    rw [revealF_succ]
    cases hm : (getTile b x y).mode with
    | Hidden =>
      simp only [hm] at h ⊢
      cases hc : (getTile b x y).content with
      | Field n =>
        cases n with
        | zero => simp only [hc] at h ⊢; exact cascadeList_mono ih _ _ _ h
        | succ n => simp only [hc] at h ⊢; exact h
      | Mine => simp only [hc] at h ⊢; exact h
      | Mistake m => simp only [hc] at h ⊢; exact h
    | Flagged => simp only [hm] at h ⊢; exact h
    | Revealed =>
      simp only [hm] at h ⊢
      cases hc : (getTile b x y).content with
      | Field n =>
        simp only [hc] at h ⊢
        by_cases hf : flaggedNb b x y = n
        · rw [if_pos hf] at h ⊢; exact cascadeList_mono ih _ _ _ h
        · rw [if_neg hf] at h ⊢; exact h
      | Mine => simp only [hc] at h ⊢; exact h
      | Mistake m => simp only [hc] at h ⊢; exact h

lemma revealF_of_le {f g : Nat} (hfg : f ≤ g) (b : Tiles) (x y : Nat) (r : Tiles)
    (h : revealF f b x y = some r) : revealF g b x y = some r := by
  induction g, hfg using Nat.le_induction with
  | base => exact h
  | succ g _ ih => exact revealF_mono g b x y r ih

lemma revealF_mode_revealed {f : Nat} {b : Tiles} {x y : Nat} {r : Tiles}
    (hm : (getTile b x y).mode = .Hidden) (h : revealF f b x y = some r) :
    (getTile r x y).mode = .Revealed := by
  obtain ⟨hx, hy⟩ := mode_hidden_bounds hm
  have hb' : (getTile (setMode b x y .Revealed) x y).mode = .Revealed := by
    rw [setMode, getTile_setTile_same _ hx hy]
  cases f with
  | zero => simp [revealF] at h
  | succ f =>
    rw [revealF_succ] at h
    simp only [hm] at h
    cases hc : (getTile b x y).content with
    | Field n =>
      cases n with
      | zero =>
        simp only [hc] at h
        exact revealRel_mode_revealed (cascadeList_rel (revealF_rel f) _ _ _ h) hb'
      | succ n => simp only [hc] at h; cases h; exact hb'
    | Mine => simp only [hc] at h; cases h; exact hb'
    | Mistake m => simp only [hc] at h; cases h; exact hb'

lemma cascadeList_reveals {f : Nat} :
    ∀ (ps : List (Nat × Nat)) (b r : Tiles), cascadeList (revealF f) b ps = some r →
      ∀ p ∈ ps, (getTile b p.1 p.2).mode = .Hidden → (getTile r p.1 p.2).mode = .Revealed := by
  intro ps
  induction ps with
  | nil => intro b r _ p hp; simp at hp
  | cons q rest ih =>
    intro b r h p hp hm
    rw [cascadeList_cons] at h
    rcases List.mem_cons.mp hp with rfl | hp2
    · simp only [hm] at h
      cases hrv : revealF f b p.1 p.2 with
      | none => rw [hrv] at h; exact absurd h (by simp)
      | some b2 =>
        rw [hrv] at h
        exact revealRel_mode_revealed (cascadeList_rel (revealF_rel f) _ _ _ h)
          (revealF_mode_revealed hm hrv)
    · cases hq : (getTile b q.1 q.2).mode with
      | Hidden =>
        simp only [hq] at h
        cases hrv : revealF f b q.1 q.2 with
        | none => rw [hrv] at h; exact absurd h (by simp)
        | some b2 =>
          rw [hrv] at h
          rcases (revealF_rel f _ _ _ _ hrv).2 p.1 p.2 with he | he
          · exact ih b2 r h p hp2 (he.trans hm)
          · exact revealRel_mode_revealed (cascadeList_rel (revealF_rel f) _ _ _ h) he.2
      | Flagged => simp only [hq] at h; exact ih b r h p hp2 hm
      | Revealed => simp only [hq] at h; exact ih b r h p hp2 hm

lemma cascadeList_no_hidden (rv : Tiles → Nat → Nat → Option Tiles)
    (ps : List (Nat × Nat)) (b : Tiles)
    (h : ∀ p ∈ ps, (getTile b p.1 p.2).mode ≠ .Hidden) :
    cascadeList rv b ps = some b := by
  induction ps with
  | nil => exact cascadeList_nil _ _
  | cons p rest ih =>
    rw [cascadeList_cons]
    cases hm : (getTile b p.1 p.2).mode with
    | Hidden => exact absurd hm (h p (List.mem_cons_self p rest))
    | Flagged => simp only; exact ih fun q hq => h q (List.mem_cons_of_mem _ hq)
    | Revealed => simp only; exact ih fun q hq => h q (List.mem_cons_of_mem _ hq)

/-! ### Case analysis of `Tiles.reveal` -/

lemma reveal_hidden_non_zero {b : Tiles} {x y : Nat}
    (hm : (getTile b x y).mode = .Hidden)
    (hc : ∀ n, (getTile b x y).content = .Field n → n ≠ 0) :
    Tiles.reveal b x y = setMode b x y .Revealed := by
  have hs := revealF_fuel_sufficient b x y
  rw [show hiddenCount b + 2 = (hiddenCount b + 1) + 1 from rfl, revealF_succ] at hs
  simp only [hm] at hs
  cases hcc : (getTile b x y).content with
  | Field n =>
    cases n with
    | zero => exact absurd rfl (hc 0 hcc)
    | succ n => simp only [hcc] at hs; exact (Option.some.inj hs).symm
  | Mine => simp only [hcc] at hs; exact (Option.some.inj hs).symm
  | Mistake m => simp only [hcc] at hs; exact (Option.some.inj hs).symm

lemma reveal_chord_ne {b : Tiles} {x y : Nat} {n : Nat}
    (hm : (getTile b x y).mode = .Revealed) (hc : (getTile b x y).content = .Field n)
    (hf : flaggedNb b x y ≠ n) :
    Tiles.reveal b x y = b := by
  have hs := revealF_fuel_sufficient b x y
  rw [show hiddenCount b + 2 = (hiddenCount b + 1) + 1 from rfl, revealF_succ] at hs
  simp only [hm, hc, if_neg hf] at hs
  exact (Option.some.inj hs).symm

lemma reveal_chord_eq {b : Tiles} {x y : Nat} {n : Nat}
    (hm : (getTile b x y).mode = .Revealed) (hc : (getTile b x y).content = .Field n)
    (hf : flaggedNb b x y = n) :
    cascadeList (revealF (hiddenCount b + 1)) b (Tiles.neighbours b x y) =
      some (Tiles.reveal b x y) := by
  have hs := revealF_fuel_sufficient b x y
  rw [show hiddenCount b + 2 = (hiddenCount b + 1) + 1 from rfl, revealF_succ] at hs
  simp only [hm, hc, if_pos hf] at hs
  exact hs

lemma reveal_flagged {b : Tiles} {x y : Nat} (hm : (getTile b x y).mode = .Flagged) :
    Tiles.reveal b x y = b := by
  have hs := revealF_fuel_sufficient b x y
  rw [show hiddenCount b + 2 = (hiddenCount b + 1) + 1 from rfl, revealF_succ] at hs
  simp only [hm] at hs
  exact (Option.some.inj hs).symm

/-! ### Bridging `getTile` and `List.flatten` membership -/

lemma getTile_mem_flatten {t : Tiles} {x y : Nat} (h1 : x < t.length)
    (h2 : y < (t.getD x []).length) : getTile t x y ∈ t.flatten := by
  rw [List.mem_flatten]
  refine ⟨t.getD x [], ?_, ?_⟩
  · rw [List.getD_eq_getElem _ _ h1]
    exact List.getElem_mem h1
  · rw [getTile, List.getD_eq_getElem _ _ h2]
    exact List.getElem_mem h2

lemma flatten_forall_iff (t : Tiles) (P : Tile → Prop) :
    (∀ tile ∈ t.flatten, P tile) ↔
      ∀ x y, x < t.length → y < (t.getD x []).length → P (getTile t x y) := by
  constructor
  · intro h x y h1 h2
    exact h _ (getTile_mem_flatten h1 h2)
  · intro h tile htile
    rw [List.mem_flatten] at htile
    obtain ⟨row, hrow, hmem⟩ := htile
    obtain ⟨x, hx, hxeq⟩ := List.mem_iff_getElem.mp hrow
    obtain ⟨y, hy, hyeq⟩ := List.mem_iff_getElem.mp hmem
    have : getTile t x y = tile := by
      rw [getTile, List.getD_eq_getElem _ _ hx, hxeq, List.getD_eq_getElem _ _ hy, hyeq]
    rw [← this]
    apply h
    · exact hx
    · rw [List.getD_eq_getElem _ _ hx, hxeq]
      exact hy

lemma getTile_finishSweep (t : Tiles) (x y : Nat) :
    getTile (finishSweep t) x y = sweepTile (getTile t x y) := by
  rw [finishSweep, getTile, getTile]
  have h1 : (t.map (List.map sweepTile)).getD x [] = List.map sweepTile (t.getD x []) := by
    have := getD_map (List.map sweepTile) t x []
    simpa using this
  rw [h1]
  have h2 := getD_map sweepTile (t.getD x []) y dftTile
  have h3 : sweepTile dftTile = dftTile := rfl
  rw [← h3, h2, h3]

/-! ### The mine layout grid: what the numbering pass preserves -/

def mineGrid (t : Tiles) : List (List Bool) :=
  t.map (List.map fun tile => tile.content.isMineB)

lemma isMineB_false_of_isFieldB {c : TileContent} (h : c.isFieldB = true) :
    c.isMineB = false := by
  cases c <;> simp_all [TileContent.isFieldB, TileContent.isMineB]

lemma isMineB_false_iff (c : TileContent) : c.isMineB = false ↔ c ≠ .Mine := by
  cases c <;> simp [TileContent.isMineB]

lemma map_map_setTile {β : Type} (f : Tile → β) (t : Tiles) (x y : Nat) (tile : Tile)
    (h : f tile = f (getTile t x y)) :
    List.map (List.map f) (setTile t x y tile) = List.map (List.map f) t := by
  rw [setTile]
  by_cases hx : x < t.length
  · rw [List.map_set]
    have hrow : List.map f ((t.getD x []).set y tile) = List.map f (t.getD x []) := by
      by_cases hy : y < (t.getD x []).length
      · rw [List.map_set]
        have hval : f tile = (List.map f (t.getD x [])).getD y (f dftTile) := by
          rw [getD_map, h, getTile]
        rw [hval, set_getD_self _ _ _ (by simpa using hy)]
      · rw [List.set_eq_of_length_le (Nat.le_of_not_lt hy)]
    rw [hrow]
    have hself : List.map f (t.getD x []) = (List.map (List.map f) t).getD x [] := by
      have := getD_map (List.map f) t x []
      simpa using this.symm
    rw [hself, set_getD_self _ _ _ (by simpa using hx)]
  · rw [List.set_eq_of_length_le (Nat.le_of_not_lt hx)]

lemma length_of_mineGrid_eq {t t2 : Tiles} (h : mineGrid t = mineGrid t2) :
    t.length = t2.length := by
  have := congrArg List.length h
  simpa [mineGrid] using this

lemma getD_mineGrid (t : Tiles) (x : Nat) :
    (mineGrid t).getD x [] = List.map (fun tile => tile.content.isMineB) (t.getD x []) := by
  have := getD_map (List.map fun tile => tile.content.isMineB) t x []
  simpa [mineGrid] using this

lemma getD_length_of_mineGrid_eq {t t2 : Tiles} (h : mineGrid t = mineGrid t2) (x : Nat) :
    (t.getD x []).length = (t2.getD x []).length := by
  have h1 : List.map (fun tile => tile.content.isMineB) (t.getD x []) =
      List.map (fun tile => tile.content.isMineB) (t2.getD x []) := by
    rw [← getD_mineGrid, ← getD_mineGrid, h]
  have := congrArg List.length h1
  simpa using this

lemma getTile_isMineB_of_mineGrid_eq {t t2 : Tiles} (h : mineGrid t = mineGrid t2)
    (x y : Nat) : (getTile t x y).content.isMineB = (getTile t2 x y).content.isMineB := by
  have e1 : (getTile t x y).content.isMineB =
      ((mineGrid t).getD x []).getD y dftTile.content.isMineB := by
    rw [getTile, getD_mineGrid, getD_map]
  have e2 : (getTile t2 x y).content.isMineB =
      ((mineGrid t2).getD x []).getD y dftTile.content.isMineB := by
    rw [getTile, getD_mineGrid, getD_map]
  rw [e1, e2, h]

lemma mineNb_of_mineGrid_eq {t t2 : Tiles} (h : mineGrid t = mineGrid t2) (x y : Nat) :
    mineNb t x y = mineNb t2 x y := by
  rw [mineNb, mineNb,
    neighbours_congr x y (length_of_mineGrid_eq h) (getD_length_of_mineGrid_eq h x)]
  congr 1
  apply List.filter_congr
  intro p _
  rw [getTile_isMineB_of_mineGrid_eq h]

lemma countMines_eq_mineGrid (t : Tiles) :
    countMines t = ((mineGrid t).map fun row => row.countP id).sum := by
  rw [countMines, mineGrid, List.map_map]
  congr 1
  apply List.map_congr_left
  intro row _
  show List.countP (fun tile => tile.content.isMineB) row =
    List.countP id (List.map (fun tile => tile.content.isMineB) row)
  rw [List.countP_map]
  rfl

lemma countMines_of_mineGrid_eq {t t2 : Tiles} (h : mineGrid t = mineGrid t2) :
    countMines t = countMines t2 := by
  rw [countMines_eq_mineGrid, countMines_eq_mineGrid, h]

lemma mineGrid_of_contentsGrid_eq {t t2 : Tiles} (h : contentsGrid t = contentsGrid t2) :
    mineGrid t = mineGrid t2 := by
  have e : ∀ s : Tiles, mineGrid s = (contentsGrid s).map (List.map TileContent.isMineB) := by
    intro s
    rw [mineGrid, contentsGrid, List.map_map]
    apply List.map_congr_left
    intro row _
    show List.map (fun tile => tile.content.isMineB) row =
      (List.map TileContent.isMineB ∘ List.map Tile.content) row
    simp [List.map_map]
  rw [e, e, h]

/-! ### Characterising the numbering pass -/

/-- Pointwise effect of the numbering loop body on the cell it processes,
expressed against a reference board. -/
def applyNum (t : Tiles) (x y : Nat) : Tile :=
  if (getTile t x y).content.isFieldB then
    ⟨(getTile t x y).mode, .Field (mineNb t x y)⟩
  else getTile t x y

lemma mineGrid_numberCell (t : Tiles) (x y : Nat) :
    mineGrid (numberCell t x y) = mineGrid t := by
  rw [numberCell]
  split
  · next hf =>
    rw [setContent, mineGrid, mineGrid]
    exact map_map_setTile _ _ _ _ _ (by
      show TileContent.isMineB (.Field (mineNb t x y)) = (getTile t x y).content.isMineB
      rw [isMineB_false_of_isFieldB hf]
      rfl)
  · rfl

lemma getTile_numberCell_other (t : Tiles) (x y u v : Nat) (h : ¬(u = x ∧ v = y)) :
    getTile (numberCell t x y) u v = getTile t u v := by
  rw [numberCell]
  split
  · rw [setContent, getTile_setTile_other _ h]
  · rfl

lemma getTile_numberCell_same (t : Tiles) (x y : Nat) (h1 : x < t.length)
    (h2 : y < (t.getD x []).length) :
    getTile (numberCell t x y) x y = applyNum t x y := by
  rw [numberCell, applyNum]
  split
  · rw [setContent, getTile_setTile_same _ h1 h2]
  · rfl

lemma applyNum_of_eq {t t2 : Tiles} (x y : Nat) (hmg : mineGrid t2 = mineGrid t)
    (hpt : getTile t2 x y = getTile t x y) : applyNum t2 x y = applyNum t x y := by
  rw [applyNum, applyNum, hpt, mineNb_of_mineGrid_eq hmg]

lemma applyNum_numberCell_same (t : Tiles) (x y : Nat) (h1 : x < t.length)
    (h2 : y < (t.getD x []).length) :
    applyNum (numberCell t x y) x y = applyNum t x y := by
  have hmg := mineGrid_numberCell t x y
  have hsame := getTile_numberCell_same t x y h1 h2
  have hnb := mineNb_of_mineGrid_eq hmg x y
  by_cases hf : (getTile t x y).content.isFieldB = true
  · have happ : applyNum t x y = ⟨(getTile t x y).mode, .Field (mineNb t x y)⟩ := by
      rw [applyNum, if_pos hf]
    rw [applyNum, hsame, happ]
    simp only [TileContent.isFieldB, if_pos, hnb]
  · have happ : applyNum t x y = getTile t x y := by
      rw [applyNum, if_neg hf]
    rw [applyNum, hsame, happ, if_neg hf]

lemma foldl_numberCell_spec :
    ∀ (L : List (Nat × Nat)) (t : Tiles),
      (∀ q ∈ L, q.1 < t.length ∧ q.2 < (t.getD q.1 []).length) →
      mineGrid (L.foldl (fun s p => numberCell s p.1 p.2) t) = mineGrid t ∧
      (∀ u v, ¬((u, v) ∈ L) →
        getTile (L.foldl (fun s p => numberCell s p.1 p.2) t) u v = getTile t u v) ∧
      (∀ q ∈ L, getTile (L.foldl (fun s p => numberCell s p.1 p.2) t) q.1 q.2 =
        applyNum t q.1 q.2) := by
  intro L
  induction L with
  | nil => intro t _; exact ⟨rfl, fun u v _ => rfl, fun q hq => absurd hq (by simp)⟩
  | cons p rest ih =>
    intro t hb
    have hp := hb p (List.mem_cons_self p rest)
    have hmg1 : mineGrid (numberCell t p.1 p.2) = mineGrid t := mineGrid_numberCell t p.1 p.2
    have hb2 : ∀ q ∈ rest, q.1 < (numberCell t p.1 p.2).length ∧
        q.2 < ((numberCell t p.1 p.2).getD q.1 []).length := by
      intro q hq
      obtain ⟨hq1, hq2⟩ := hb q (List.mem_cons_of_mem _ hq)
      rw [length_of_mineGrid_eq hmg1, getD_length_of_mineGrid_eq hmg1]
      exact ⟨hq1, hq2⟩
    obtain ⟨ihmg, ihother, ihmem⟩ := ih (numberCell t p.1 p.2) hb2
    have hfold : (p :: rest).foldl (fun s q => numberCell s q.1 q.2) t =
        rest.foldl (fun s q => numberCell s q.1 q.2) (numberCell t p.1 p.2) := rfl
    refine ⟨?_, ?_, ?_⟩
    · rw [hfold, ihmg, hmg1]
    · intro u v huv
      have hne : ¬(u = p.1 ∧ v = p.2) := by
        intro ⟨h1, h2⟩
        exact huv (by rw [h1, h2]; exact List.mem_cons_self p rest)
      rw [hfold, ihother u v (fun hh => huv (List.mem_cons_of_mem _ hh)),
        getTile_numberCell_other _ _ _ _ _ hne]
    · intro q hq
      by_cases hqrest : q ∈ rest
      · have e1 := ihmem q hqrest
        by_cases hqp : q.1 = p.1 ∧ q.2 = p.2
        · obtain ⟨h1, h2⟩ := hqp
          rw [hfold, e1, h1, h2, applyNum_numberCell_same t p.1 p.2 hp.1 hp.2]
        · rw [hfold, e1]
          exact applyNum_of_eq _ _ hmg1 (getTile_numberCell_other _ _ _ _ _ hqp)
      · have hqp : q = p := by
          rcases List.mem_cons.mp hq with h | h
          · exact h
          · exact absurd h hqrest
        subst hqp
        rw [hfold, ihother q.1 q.2 hqrest, getTile_numberCell_same _ _ _ hp.1 hp.2]

lemma mem_cellList (w h x y : Nat) : (x, y) ∈ cellList w h ↔ x < w ∧ y < h := by
  simp only [cellList, List.mem_flatMap, List.mem_map, List.mem_range]
  constructor
  · rintro ⟨a, ha, b, hb, heq⟩
    obtain ⟨rfl, rfl⟩ := Prod.mk.injEq .. ▸ heq
    cases heq
    exact ⟨ha, hb⟩
  · rintro ⟨hx, hy⟩
    exact ⟨x, hx, y, hy, rfl⟩

/-- Every `Field n` tile carries the true Moore-neighbourhood mine count. -/
def numberingCorrect (t : Tiles) : Prop :=
  ∀ x y, x < t.length → y < (t.getD x []).length →
    ∀ n, (getTile t x y).content = .Field n → n = mineNb t x y

lemma numberPass_spec (t : Tiles) (w h : Nat) (hlen : t.length = w)
    (hrow : ∀ x, x < w → (t.getD x []).length = h) :
    mineGrid (numberPass t w h) = mineGrid t ∧ numberingCorrect (numberPass t w h) ∧
    (∀ u v, getTile (numberPass t w h) u v = applyNum t u v ∨
      getTile (numberPass t w h) u v = getTile t u v) := by
  have hb : ∀ q ∈ cellList w h, q.1 < t.length ∧ q.2 < (t.getD q.1 []).length := by
    intro q hq
    have := (mem_cellList w h q.1 q.2).mp (by simpa using hq)
    exact ⟨by rw [hlen]; exact this.1, by rw [hrow q.1 this.1]; exact this.2⟩
  obtain ⟨hmg, hother, hmem⟩ := foldl_numberCell_spec (cellList w h) t hb
  refine ⟨hmg, ?_, ?_⟩
  · intro x y hx hy n hcont
    have hx2 : x < w := by rw [← hlen, ← length_of_mineGrid_eq hmg]; exact hx
    have hy2 : y < h := by
      rw [← hrow x hx2, ← getD_length_of_mineGrid_eq hmg]; exact hy
    have hcell : (x, y) ∈ cellList w h := (mem_cellList w h x y).mpr ⟨hx2, hy2⟩
    have happ := hmem (x, y) hcell
    rw [numberPass] at hcont ⊢
    rw [happ] at hcont
    rw [applyNum] at hcont
    by_cases hf : (getTile t x y).content.isFieldB = true
    · rw [if_pos hf] at hcont
      simp only at hcont
      cases hcont
      exact (mineNb_of_mineGrid_eq hmg x y).symm
    · rw [if_neg hf] at hcont
      rw [hcont] at hf
      simp [TileContent.isFieldB] at hf
  · intro u v
    by_cases hc : (u, v) ∈ cellList w h
    · exact Or.inl (hmem (u, v) hc)
    · exact Or.inr (hother u v hc)

/-! ### Blank boards and mine placement -/

lemma length_new_blank (w h : Nat) : (Tiles.new_blank w h).length = w := by
  simp [Tiles.new_blank]

lemma getD_new_blank {w : Nat} (h : Nat) {x : Nat} (hx : x < w) :
    (Tiles.new_blank w h).getD x [] =
      (List.range h).map fun _ => ({ mode := .Hidden, content := .Field 0 } : Tile) := by
  rw [Tiles.new_blank, List.getD_eq_getElem _ _ (by simpa using hx), List.getElem_map]

lemma getD_length_new_blank {w : Nat} (h : Nat) {x : Nat} (hx : x < w) :
    ((Tiles.new_blank w h).getD x []).length = h := by
  rw [getD_new_blank h hx]
  simp

lemma getTile_content_new_blank (w h x y : Nat) :
    (getTile (Tiles.new_blank w h) x y).content = .Field 0 := by
  by_cases hx : x < w
  · by_cases hy : y < h
    · rw [getTile, getD_new_blank h hx,
        List.getD_eq_getElem _ _ (by simpa using hy), List.getElem_map]
    · rw [getTile, getD_new_blank h hx,
        List.getD_eq_default _ _ (by simpa using Nat.le_of_not_lt hy)]
      rfl
  · have houter : List.getD (Tiles.new_blank w h) x [] = [] :=
      List.getD_eq_default _ _ (by rw [length_new_blank]; exact Nat.le_of_not_lt hx)
    rw [getTile, houter]
    rfl

lemma countMines_new_blank (w h : Nat) : countMines (Tiles.new_blank w h) = 0 := by
  rw [countMines, Tiles.new_blank, List.map_map]
  apply List.sum_eq_zero
  intro n hn
  rw [List.mem_map] at hn
  obtain ⟨a, _, ha⟩ := hn
  rw [← ha]
  show ((List.range h).map fun _ => ({ mode := .Hidden, content := .Field 0 } : Tile)).countP
    (fun tile => tile.content.isMineB) = 0
  rw [List.countP_eq_zero]
  intro tile htile
  rw [List.mem_map] at htile
  obtain ⟨_, _, hteq⟩ := htile
  rw [← hteq]
  simp [TileContent.isMineB]

lemma setTile_oob {t : Tiles} {x y : Nat} (tile : Tile)
    (h : ¬(x < t.length ∧ y < (t.getD x []).length)) : setTile t x y tile = t := by
  rw [setTile]
  by_cases h1 : x < t.length
  · have h2 : ¬y < (t.getD x []).length := fun hy => h ⟨h1, hy⟩
    rw [List.set_eq_of_length_le (Nat.le_of_not_lt h2), set_getD_self _ _ _ h1]
  · rw [List.set_eq_of_length_le (Nat.le_of_not_lt h1)]

lemma getTile_mode_setContent (t : Tiles) (x y : Nat) (c : TileContent) (u v : Nat) :
    (getTile (setContent t x y c) u v).mode = (getTile t u v).mode := by
  by_cases h : u = x ∧ v = y
  · obtain ⟨rfl, rfl⟩ := h
    by_cases hb : u < t.length ∧ v < (t.getD u []).length
    · rw [setContent, getTile_setTile_same _ hb.1 hb.2]
    · rw [setContent, setTile_oob _ hb]
  · rw [setContent, getTile_setTile_other _ h]

lemma countMines_setContent_mine {t : Tiles} {x y : Nat}
    (h1 : x < t.length) (h2 : y < (t.getD x []).length)
    (h : (getTile t x y).content.isMineB = false) :
    countMines (setContent t x y .Mine) = countMines t + 1 := by
  rw [countMines, countMines, setContent, setTile, List.map_set]
  have hrow : ((t.getD x []).set y ⟨(getTile t x y).mode, .Mine⟩).countP
      (fun tile => tile.content.isMineB) =
      (t.getD x []).countP (fun tile => tile.content.isMineB) + 1 := by
    have := countP_set_add (fun tile => tile.content.isMineB) (t.getD x []) y
      ⟨(getTile t x y).mode, .Mine⟩ h2
    have hget : (t.getD x []).getD y (⟨(getTile t x y).mode, .Mine⟩ : Tile) =
        getTile t x y := by
      rw [getTile, List.getD_eq_getElem _ _ h2, List.getD_eq_getElem _ _ h2]
    rw [hget] at this
    have hb1 : ((fun tile => tile.content.isMineB) (getTile t x y) : Bool) = false := h
    have hb2 : ((fun tile => tile.content.isMineB)
        (⟨(getTile t x y).mode, TileContent.Mine⟩ : Tile) : Bool) = true := rfl
    rw [hb1, hb2, if_neg (by decide), if_pos rfl] at this
    omega
  have hsum := sum_set_add (t.map fun row => row.countP fun tile => tile.content.isMineB) x
    (((t.getD x []).set y ⟨(getTile t x y).mode, .Mine⟩).countP
      fun tile => tile.content.isMineB) (by simpa using h1)
  have hgetrow : (t.map fun row => row.countP fun tile => tile.content.isMineB).getD x
      (((t.getD x []).set y ⟨(getTile t x y).mode, .Mine⟩).countP
        fun tile => tile.content.isMineB) =
      (t.getD x []).countP fun tile => tile.content.isMineB := by
    rw [List.getD_eq_getElem _ _ (by simpa using h1), List.getElem_map,
      List.getD_eq_getElem _ _ h1]
  rw [hgetrow] at hsum
  omega

lemma placeOne_spec : ∀ (picks : List (Nat × Nat)) (b : Tiles) (ignore : Nat × Nat)
    (b2 : Tiles) (rest : List (Nat × Nat)), placeOne b ignore picks = some (b2, rest) →
    ∃ p, p ∈ picks ∧ p ≠ ignore ∧ (getTile b p.1 p.2).content ≠ .Mine ∧
      b2 = setContent b p.1 p.2 .Mine ∧ ∀ q ∈ rest, q ∈ picks := by
  intro picks
  induction picks with
  | nil => intro b ignore b2 rest h; simp [placeOne] at h
  | cons p ps ih =>
    intro b ignore b2 rest h
    simp only [placeOne] at h
    by_cases hpi : p = ignore
    · rw [if_pos hpi] at h
      obtain ⟨q, hq1, hq2, hq3, hq4, hq5⟩ := ih b ignore b2 rest h
      exact ⟨q, List.mem_cons_of_mem _ hq1, hq2, hq3, hq4,
        fun r hr => List.mem_cons_of_mem _ (hq5 r hr)⟩
    · rw [if_neg hpi] at h
      by_cases hpm : (getTile b p.1 p.2).content = .Mine
      · rw [if_pos hpm] at h
        obtain ⟨q, hq1, hq2, hq3, hq4, hq5⟩ := ih b ignore b2 rest h
        exact ⟨q, List.mem_cons_of_mem _ hq1, hq2, hq3, hq4,
          fun r hr => List.mem_cons_of_mem _ (hq5 r hr)⟩
      · rw [if_neg hpm] at h
        obtain ⟨h1, h2⟩ := Prod.mk.injEq .. ▸ Option.some.inj h
        exact ⟨p, List.mem_cons_self p ps, hpi, hpm, h1.symm,
          fun r hr => List.mem_cons_of_mem _ (h2 ▸ hr)⟩

lemma populate_mines_spec : ∀ (mc : Nat) (b : Tiles) (ignore : Nat × Nat)
    (picks : List (Nat × Nat)) (t : Tiles),
    (∀ p ∈ picks, p.1 < b.length ∧ p.2 < (b.getD p.1 []).length) →
    Tiles.populate_mines b mc ignore picks = some t →
    countMines t = countMines b + mc ∧
    getTile t ignore.1 ignore.2 = getTile b ignore.1 ignore.2 ∧
    t.length = b.length ∧ (∀ u, (t.getD u []).length = (b.getD u []).length) ∧
    (∀ u v, getTile t u v = getTile b u v ∨
      getTile t u v = ⟨(getTile b u v).mode, .Mine⟩) := by
  intro mc
  induction mc with
  | zero =>
    intro b ignore picks t _ h
    simp only [Tiles.populate_mines] at h
    cases h
    exact ⟨by omega, rfl, rfl, fun _ => rfl, fun u v => Or.inl rfl⟩
  | succ mc ih =>
    intro b ignore picks t hb h
    simp only [Tiles.populate_mines] at h
    cases hpl : placeOne b ignore picks with
    | none => rw [hpl] at h; exact absurd h (by simp)
    | some pr =>
      obtain ⟨b2, rest⟩ := pr
      rw [hpl] at h
      obtain ⟨p, hp_mem, hp_ne, hp_nm, hb2, hrest⟩ := placeOne_spec picks b ignore b2 rest hpl
      obtain ⟨hpx, hpy⟩ := hb p hp_mem
      have hlen2 : b2.length = b.length := by rw [hb2, setContent]; exact length_setTile _ _ _ _
      have hrow2 : ∀ u, (b2.getD u []).length = (b.getD u []).length := fun u => by
        rw [hb2, setContent]; exact getD_length_setTile _ _ _ _ _
      have hb2bounds : ∀ q ∈ rest, q.1 < b2.length ∧ q.2 < (b2.getD q.1 []).length := by
        intro q hq
        rw [hlen2, hrow2]
        exact hb q (hrest q hq)
      obtain ⟨hcm, hig, hl, hr, hdisj⟩ := ih b2 ignore rest t hb2bounds h
      have hcm2 : countMines b2 = countMines b + 1 := by
        rw [hb2]
        exact countMines_setContent_mine hpx hpy ((isMineB_false_iff _).mpr hp_nm)
      have hip : ¬(ignore.1 = p.1 ∧ ignore.2 = p.2) := by
        intro ⟨e1, e2⟩
        exact hp_ne (Prod.ext e1.symm e2.symm)
      refine ⟨by omega, ?_, by rw [hl, hlen2], fun u => by rw [hr u, hrow2 u], ?_⟩
      · rw [hig, hb2, setContent, getTile_setTile_other _ hip]
      · intro u v
        rcases hdisj u v with hd | hd
        · rw [hd, hb2]
          by_cases huv : u = p.1 ∧ v = p.2
          · obtain ⟨rfl, rfl⟩ := huv
            right
            rw [setContent, getTile_setTile_same _ hpx hpy]
          · left
            rw [setContent, getTile_setTile_other _ huv]
        · right
          rw [hd, hb2, getTile_mode_setContent]

lemma numberingCorrect_of_contentsGrid_eq {t t2 : Tiles}
    (h : contentsGrid t = contentsGrid t2) (hnc : numberingCorrect t2) :
    numberingCorrect t := by
  intro x y hx hy n hcont
  rw [getTile_content_of_contentsGrid_eq h] at hcont
  rw [mineNb_of_contentsGrid_eq h]
  exact hnc x y (by rw [← length_of_contentsGrid_eq h]; exact hx)
    (by rw [← getD_length_of_contentsGrid_eq h]; exact hy) n hcont

lemma Tiles_new_elim {w h : Nat} {start : Nat × Nat} {mc : Nat}
    {picks : List (Nat × Nat)} {t : Tiles}
    (ht : Tiles.new (w, h) start mc picks = some t) :
    w * h > mc ∧ ∃ tb, Tiles.populate_mines (Tiles.new_blank w h) mc start picks = some tb ∧
      t = Tiles.reveal (numberPass tb w h) start.1 start.2 := by
  rw [Tiles.new] at ht
  by_cases hwh : w * h > mc
  · rw [if_pos hwh] at ht
    cases hpop : Tiles.populate_mines (Tiles.new_blank w h) mc start picks with
    | none => rw [hpop] at ht; simp at ht
    | some tb =>
      rw [hpop] at ht
      simp only [Option.map_some] at ht
      exact ⟨hwh, tb, rfl, (Option.some.inj ht).symm⟩
  · rw [if_neg hwh] at ht
    simp at ht

lemma Tiles_new_spec {w h mc : Nat} {start : Nat × Nat} {picks : List (Nat × Nat)} {t : Tiles}
    (hpk : ∀ p ∈ picks, p.1 < w ∧ p.2 < h)
    (ht : Tiles.new (w, h) start mc picks = some t) :
    countMines t = mc ∧ (getTile t start.1 start.2).content ≠ .Mine ∧
    numberingCorrect t ∧ t.length = w ∧ (∀ x, x < w → (t.getD x []).length = h) ∧
    (∀ u v, (getTile t u v).content.isMistakeB = false) := by
  obtain ⟨hwh, tb, hpop, hteq⟩ := Tiles_new_elim ht
  have hbl : (Tiles.new_blank w h).length = w := length_new_blank w h
  have hbr : ∀ p ∈ picks, p.1 < (Tiles.new_blank w h).length ∧
      p.2 < ((Tiles.new_blank w h).getD p.1 []).length := by
    intro p hp
    obtain ⟨h1, h2⟩ := hpk p hp
    exact ⟨by rw [hbl]; exact h1, by rw [getD_length_new_blank h h1]; exact h2⟩
  obtain ⟨hcm, hig, hlp, hrp, hdisj⟩ := populate_mines_spec mc _ start picks tb hbr hpop
  have htbl : tb.length = w := by rw [hlp, hbl]
  have htbr : ∀ x, x < w → (tb.getD x []).length = h := fun x hx => by
    rw [hrp x, getD_length_new_blank h hx]
  obtain ⟨hmg, hnc, hpt⟩ := numberPass_spec tb w h htbl htbr
  have hcg : contentsGrid t = contentsGrid (numberPass tb w h) := by
    rw [hteq]; exact contentsGrid_reveal _ start.1 start.2
  have hstart_tb : (getTile tb start.1 start.2).content = .Field 0 := by
    rw [hig]; exact getTile_content_new_blank w h _ _
  have htb_nm : ∀ u v, (getTile tb u v).content.isMistakeB = false := by
    intro u v
    rcases hdisj u v with hd | hd
    · rw [hd, getTile_content_new_blank]; rfl
    · rw [hd]; rfl
  refine ⟨?_, ?_, ?_, ?_, ?_, ?_⟩
  · rw [countMines_of_contentsGrid_eq hcg, countMines_of_mineGrid_eq hmg, hcm,
      countMines_new_blank]
    omega
  · rw [getTile_content_of_contentsGrid_eq hcg]
    rcases hpt start.1 start.2 with hp | hp
    · rw [hp, applyNum]
      split
      · simp
      · rw [hstart_tb]; simp
    · rw [hp, hstart_tb]; simp
  · exact numberingCorrect_of_contentsGrid_eq hcg hnc
  · rw [length_of_contentsGrid_eq hcg, length_of_mineGrid_eq hmg, htbl]
  · intro x hx
    rw [getD_length_of_contentsGrid_eq hcg, getD_length_of_mineGrid_eq hmg, htbr x hx]
  · intro u v
    rw [getTile_content_of_contentsGrid_eq hcg]
    rcases hpt u v with hp | hp
    · rw [hp, applyNum]
      split
      · rfl
      · exact htb_nm u v
    · rw [hp]
      exact htb_nm u v

/-! ### Helpers for the finish sweep, status and the no-mistake invariant -/

lemma length_finishSweep (t : Tiles) : (finishSweep t).length = t.length := by
  rw [finishSweep, List.length_map]

lemma getD_length_finishSweep (t : Tiles) (x : Nat) :
    ((finishSweep t).getD x []).length = (t.getD x []).length := by
  rw [finishSweep]
  have := getD_map (List.map sweepTile) t x []
  simp only [List.map_nil] at this
  rw [this, List.length_map]

lemma flatten_contentsGrid (t : Tiles) :
    (contentsGrid t).flatten = t.flatten.map Tile.content := by
  rw [contentsGrid, List.map_flatten]

lemma noMistake_flatten_of_contentsGrid_eq {t t2 : Tiles}
    (h : contentsGrid t = contentsGrid t2)
    (hm : ∀ tile ∈ t2.flatten, tile.content.isMistakeB = false) :
    ∀ tile ∈ t.flatten, tile.content.isMistakeB = false := by
  intro tile htile
  have hc : tile.content ∈ (contentsGrid t).flatten := by
    rw [flatten_contentsGrid]
    exact List.mem_map_of_mem _ htile
  rw [h, flatten_contentsGrid] at hc
  rw [List.mem_map] at hc
  obtain ⟨tile2, htile2, heq⟩ := hc
  rw [← heq]
  exact hm tile2 htile2

lemma getTile_content_setContent_cases (t : Tiles) (x y : Nat) (c : TileContent) (u v : Nat) :
    (getTile (setContent t x y c) u v).content = (getTile t u v).content ∨
      (getTile (setContent t x y c) u v).content = c := by
  by_cases h : u = x ∧ v = y
  · obtain ⟨rfl, rfl⟩ := h
    by_cases hb : u < t.length ∧ v < (t.getD u []).length
    · right
      rw [setContent, getTile_setTile_same _ hb.1 hb.2]
    · left
      rw [setContent, setTile_oob _ hb]
  · left
    rw [setContent, getTile_setTile_other _ h]

lemma length_setContent (t : Tiles) (x y : Nat) (c : TileContent) :
    (setContent t x y c).length = t.length := by
  rw [setContent]; exact length_setTile _ _ _ _

lemma getD_length_setContent (t : Tiles) (x y : Nat) (c : TileContent) (u : Nat) :
    ((setContent t x y c).getD u []).length = (t.getD u []).length := by
  rw [setContent]; exact getD_length_setTile _ _ _ _ _

lemma populate_mines_shape : ∀ (mc : Nat) (b : Tiles) (ignore : Nat × Nat)
    (picks : List (Nat × Nat)) (t : Tiles),
    Tiles.populate_mines b mc ignore picks = some t →
    t.length = b.length ∧ (∀ u, (t.getD u []).length = (b.getD u []).length) ∧
    (∀ u v, (getTile t u v).content = (getTile b u v).content ∨
      (getTile t u v).content = .Mine) := by
  intro mc
  induction mc with
  | zero =>
    intro b ignore picks t h
    simp only [Tiles.populate_mines] at h
    cases h
    exact ⟨rfl, fun _ => rfl, fun u v => Or.inl rfl⟩
  | succ mc ih =>
    intro b ignore picks t h
    simp only [Tiles.populate_mines] at h
    cases hpl : placeOne b ignore picks with
    | none => rw [hpl] at h; exact absurd h (by simp)
    | some pr =>
      obtain ⟨b2, rest⟩ := pr
      rw [hpl] at h
      obtain ⟨p, _, _, _, hb2, _⟩ := placeOne_spec picks b ignore b2 rest hpl
      obtain ⟨hl, hr, hc⟩ := ih b2 ignore rest t h
      refine ⟨by rw [hl, hb2, length_setContent], fun u => by rw [hr u, hb2, getD_length_setContent], ?_⟩
      intro u v
      rcases hc u v with hd | hd
      · rw [hd, hb2]
        rcases getTile_content_setContent_cases b p.1 p.2 .Mine u v with he | he
        · exact Or.inl he
        · exact Or.inr he
      · exact Or.inr hd

lemma Tiles_new_no_mistake {w h mc : Nat} {start : Nat × Nat}
    {picks : List (Nat × Nat)} {t : Tiles}
    (ht : Tiles.new (w, h) start mc picks = some t) :
    ∀ u v, (getTile t u v).content.isMistakeB = false := by
  obtain ⟨hwh, tb, hpop, hteq⟩ := Tiles_new_elim ht
  obtain ⟨hl, hr, hc⟩ := populate_mines_shape mc _ start picks tb hpop
  have htbl : tb.length = w := by rw [hl, length_new_blank]
  have htbr : ∀ x, x < w → (tb.getD x []).length = h := fun x hx => by
    rw [hr x, getD_length_new_blank h hx]
  have htb_nm : ∀ u v, (getTile tb u v).content.isMistakeB = false := by
    intro u v
    rcases hc u v with hd | hd
    · rw [hd, getTile_content_new_blank]; rfl
    · rw [hd]; rfl
  obtain ⟨hmg, _, hpt⟩ := numberPass_spec tb w h htbl htbr
  have hcg : contentsGrid t = contentsGrid (numberPass tb w h) := by
    rw [hteq]; exact contentsGrid_reveal _ start.1 start.2
  intro u v
  rw [getTile_content_of_contentsGrid_eq hcg]
  rcases hpt u v with hp | hp
  · rw [hp, applyNum]
    split
    · rfl
    · exact htb_nm u v
  · rw [hp]
    exact htb_nm u v

lemma move_on_blank_ongoing {g : Game} {picks : List (Nat × Nat)} {t : Tiles}
    (hs : g.state = .Blank) (ht : (g.move_on picks).state = .Ongoing t) :
    Tiles.new g.size g.cursor g.mine_count picks = some t := by
  simp only [Game.move_on, hs] at ht
  cases hnew : Tiles.new g.size g.cursor g.mine_count picks with
  | some tn =>
    rw [hnew] at ht
    simp only at ht
    cases ht
    rfl
  | none =>
    rw [hnew] at ht
    rw [hs] at ht
    exact absurd ht (by simp)

lemma move_on_finished_state {g : Game} {picks : List (Nat × Nat)} {tf : Tiles}
    (hs : g.state = .Finished tf) : (g.move_on picks).state = .Blank := by
  simp only [Game.move_on, hs]

/-- **C8.** In every state reachable from `Game.new` through the public
operations (for every outcome of the randomness), an in-progress match
never holds `Mistake` content: the `Mistake` constructor is produced only
by the finish sweep, at the transition to `Finished` — so the
`unreachable!()` arms matching `Mistake` content in `Tiles::reveal` and in
the sweep are never executed. -/
theorem C8_no_mistake_while_in_progress (g : Game) (hr : Reachable g) :
    ∀ t, g.state = .Ongoing t → ∀ tile ∈ t.flatten, tile.content.isMistakeB = false := by
  induction hr with
  | new size mine_count =>
    intro t ht
    exact absurd ht (by simp [Game.new])
  | move d _ ih =>
    intro t ht
    exact ih t ht
  | @flag g2 picks _ ih =>
    intro t ht
    cases hs : g2.state with
    | Ongoing t0 =>
      simp only [Game.flag, hs] at ht
      cases ht
      exact noMistake_flatten_of_contentsGrid_eq (contentsGrid_setMode t0 _ _ _) (ih t0 hs)
    | Blank =>
      simp only [Game.flag, hs] at ht
      have hnew := move_on_blank_ongoing hs ht
      exact (flatten_forall_iff t _).mpr fun x y _ _ =>
        Tiles_new_no_mistake hnew x y
    | Finished tf =>
      simp only [Game.flag, hs] at ht
      rw [move_on_finished_state hs] at ht
      exact absurd ht (by simp)
  | @reveal g2 picks _ ih =>
    intro t ht
    cases hs : g2.state with
    | Ongoing t0 =>
      simp only [Game.reveal, hs] at ht
      simp only [Game.maybe_finish] at ht
      by_cases hw : (hasWon (Tiles.reveal t0 g2.cursor.1 g2.cursor.2) ||
          hasLost (Tiles.reveal t0 g2.cursor.1 g2.cursor.2)) = true
      · rw [if_pos hw] at ht
        exact absurd ht (by simp)
      · rw [if_neg hw] at ht
        cases ht
        exact noMistake_flatten_of_contentsGrid_eq (contentsGrid_reveal t0 _ _) (ih t0 hs)
    | Blank =>
      simp only [Game.reveal, hs] at ht
      have hnew := move_on_blank_ongoing hs ht
      exact (flatten_forall_iff t _).mpr fun x y _ _ =>
        Tiles_new_no_mistake hnew x y
    | Finished tf =>
      simp only [Game.reveal, hs] at ht
      rw [move_on_finished_state hs] at ht
      exact absurd ht (by simp)

/-- Witness for C8: the no-mistake invariant evaluated on the match reached
by starting a 1-by-1 game with zero mines. -/
theorem C8_no_mistake_while_in_progress_witness :
    ({ mode := .Revealed, content := .Field 0 } : Tile).content.isMistakeB = false :=
  C8_no_mistake_while_in_progress ((Game.new (1, 1) 0).reveal [])
    (Reachable.reveal [] (Reachable.new (1, 1) 0))
    [[{ mode := .Revealed, content := .Field 0 }]] (by decide)
    { mode := .Revealed, content := .Field 0 } (by decide)

/-- **C1, counterexample.** Start a 1-by-1, zero-mine match: the first
`reveal` creates the board with its single tile already revealed, so the
board satisfies the win condition while the match is `Ongoing`.  The
subsequent `flag()` call leaves the match `Ongoing` — it does not
re-evaluate terminal conditions, contradicting the claim that a `flag()`
whose resulting board satisfies the win condition transitions to
`Finished` (`Game::flag` never calls `maybe_finish`). -/
theorem C1_counterexample :
    (((Game.new (1, 1) 0).reveal []).state =
      .Ongoing [[({ mode := .Revealed, content := .Field 0 } : Tile)]]) ∧
    hasWon [[({ mode := .Revealed, content := .Field 0 } : Tile)]] = true ∧
    ((((Game.new (1, 1) 0).reveal []).flag []).state =
      .Ongoing [[({ mode := .Revealed, content := .Field 0 } : Tile)]]) ∧
    (((Game.new (1, 1) 0).reveal []).flag []).status = .Ongoing := by
  refine ⟨by decide, by decide, by decide, by decide⟩

/-- **C1, amended.** On an `InProgress` match, `flag()` only toggles the
mode of the cursor tile; it never re-evaluates terminal conditions, so the
match stays `InProgress` even when the resulting board satisfies the win
condition. -/
theorem C1_flag_only_toggles (g : Game) (t : Tiles) (picks : List (Nat × Nat))
    (h : g.state = .Ongoing t) :
    (g.flag picks).state = .Ongoing
      (setMode t g.cursor.1 g.cursor.2
        (toggleFlag (getTile t g.cursor.1 g.cursor.2).mode)) := by
  simp only [Game.flag, h]

/-- Witness for the amended C1 on the board of the counterexample. -/
theorem C1_flag_only_toggles_witness :
    (((Game.new (1, 1) 0).reveal []).state =
      .Ongoing [[({ mode := .Revealed, content := .Field 0 } : Tile)]]) ∧
    ((((Game.new (1, 1) 0).reveal []).flag []).state =
      .Ongoing (setMode [[({ mode := .Revealed, content := .Field 0 } : Tile)]] 0 0
        (toggleFlag (getTile [[({ mode := .Revealed, content := .Field 0 } : Tile)]] 0 0).mode))) :=
  ⟨by decide, C1_flag_only_toggles ((Game.new (1, 1) 0).reveal [])
    [[({ mode := .Revealed, content := .Field 0 } : Tile)]] [] (by decide)⟩

/-- A match reached through the public operations on a 7-by-1 board with
one mine at `(3, 0)`: start by revealing `(0, 0)` (auto-reveals cells 0-2),
flag cell 6, reveal the zero tile 5 (cascades to 4, skips the flagged 6),
unflag cell 6, and move the cursor back onto the revealed zero tile 5. -/
def c2Game : Game :=
  let g1 := (Game.new (7, 1) 1).reveal [(3, 0)]
  let g2 := (((((g1.move_cursor .Right).move_cursor .Right).move_cursor .Right).move_cursor
    .Right).move_cursor .Right).move_cursor .Right
  let g4 := ((g2.flag []).move_cursor .Left).reveal []
  ((g4.move_cursor .Right).flag []).move_cursor .Left

/-- The board of `c2Game`: cell 5 is a Revealed zero tile whose neighbour 6
is Concealed (it was flagged when 5 was revealed, then unflagged). -/
def c2Board : Tiles :=
  [[{ mode := .Revealed, content := .Field 0 }],
   [{ mode := .Revealed, content := .Field 0 }],
   [{ mode := .Revealed, content := .Field 1 }],
   [{ mode := .Hidden, content := .Mine }],
   [{ mode := .Revealed, content := .Field 1 }],
   [{ mode := .Revealed, content := .Field 0 }],
   [{ mode := .Hidden, content := .Field 0 }]]

/-- **C2, counterexample.** On the reachable `InProgress` board `c2Board`,
calling reveal on the already-Revealed `Field 0` tile at `(5, 0)` is *not*
a no-op: the zero-flag chord cascades into the Concealed neighbour 6,
changing the board (and here even finishing the match). -/
theorem C2_counterexample :
    c2Game.state = .Ongoing c2Board ∧
    c2Game.cursor = (5, 0) ∧
    getTile c2Board 5 0 = { mode := .Revealed, content := .Field 0 } ∧
    (c2Game.reveal []).state ≠ .Ongoing c2Board ∧
    (c2Game.reveal []).state =
      .Finished [[{ mode := .Revealed, content := .Field 0 }],
        [{ mode := .Revealed, content := .Field 0 }],
        [{ mode := .Revealed, content := .Field 1 }],
        [{ mode := .Revealed, content := .Mine }],
        [{ mode := .Revealed, content := .Field 1 }],
        [{ mode := .Revealed, content := .Field 0 }],
        [{ mode := .Revealed, content := .Field 0 }]] := by
  refine ⟨by decide, by decide, by decide, by decide, by decide⟩

/-- **C2, amended.** Revealing an already-Revealed `Field 0` tile produces
no further change *provided every neighbour is already non-Concealed*: with
a flagged neighbour the chord count mismatches and nothing happens, and
with none the cascade finds no Concealed neighbour to enter.  (Without that
proviso the zero-flag chord can reveal Concealed neighbours, as
`C2_counterexample` shows.) -/
theorem C2_reveal_revealed_zero_noop (b : Tiles) (x y : Nat)
    (hm : (getTile b x y).mode = .Revealed) (hc : (getTile b x y).content = .Field 0)
    (hnb : ∀ p ∈ Tiles.neighbours b x y, (getTile b p.1 p.2).mode ≠ .Hidden) :
    Tiles.reveal b x y = b := by
  by_cases hf : flaggedNb b x y = 0
  · have h := reveal_chord_eq hm hc hf
    rw [cascadeList_no_hidden _ _ _ hnb] at h
    exact (Option.some.inj h).symm
  · exact reveal_chord_ne hm hc hf

/-- Witness for the amended C2: a lone revealed zero tile re-revealed. -/
theorem C2_reveal_revealed_zero_noop_witness :
    Tiles.reveal [[({ mode := .Revealed, content := .Field 0 } : Tile)]] 0 0 =
      [[({ mode := .Revealed, content := .Field 0 } : Tile)]] :=
  C2_reveal_revealed_zero_noop _ 0 0 (by decide) (by decide) (by decide)

/-- **C9.** The recursive reveal terminates on every board: fuel
`hiddenCount b + 2` — one dispatch step, one chord step, and one step per
Concealed tile — always completes, any larger fuel gives the same result,
and the number of Concealed tiles never increases, decreasing strictly
whenever a Concealed tile is revealed (each cell is revealed at most
once). -/
theorem C9_reveal_terminates (b : Tiles) (x y : Nat) :
    (∀ f, hiddenCount b + 2 ≤ f → revealF f b x y = some (Tiles.reveal b x y)) ∧
    hiddenCount (Tiles.reveal b x y) ≤ hiddenCount b ∧
    ((getTile b x y).mode = .Hidden →
      hiddenCount (Tiles.reveal b x y) < hiddenCount b) := by
  refine ⟨?_, hiddenCount_reveal_le b x y, fun h => hiddenCount_reveal_lt h⟩
  intro f hf
  exact revealF_of_le hf _ _ _ _ (revealF_fuel_sufficient b x y)

/-- Witness for C9: one Concealed tile, fuel 3 and 9 agree, and the count
drops from 1 to 0. -/
theorem C9_reveal_terminates_witness :
    revealF 9 [[({ mode := .Hidden, content := .Field 0 } : Tile)]] 0 0 =
      some (Tiles.reveal [[({ mode := .Hidden, content := .Field 0 } : Tile)]] 0 0) ∧
    hiddenCount (Tiles.reveal [[({ mode := .Hidden, content := .Field 0 } : Tile)]] 0 0) <
      hiddenCount [[({ mode := .Hidden, content := .Field 0 } : Tile)]] :=
  ⟨(C9_reveal_terminates _ 0 0).1 9 (by decide),
    (C9_reveal_terminates _ 0 0).2.2 (by decide)⟩

/-- **C5.** Chord-reveal: on any board, re-revealing a Revealed `Field n`
tile with exactly `n` Flagged neighbours reveals every currently-Concealed
neighbour (each through the normal reveal rules, possibly cascading), and
with a flagged-neighbour count different from `n` it changes nothing. -/
theorem C5_chord_reveal (b : Tiles) (x y n : Nat)
    (hm : (getTile b x y).mode = .Revealed) (hc : (getTile b x y).content = .Field n) :
    (flaggedNb b x y = n →
      ∀ p ∈ Tiles.neighbours b x y, (getTile b p.1 p.2).mode = .Hidden →
        (getTile (Tiles.reveal b x y) p.1 p.2).mode = .Revealed) ∧
    (flaggedNb b x y ≠ n → Tiles.reveal b x y = b) := by
  refine ⟨?_, fun hf => reveal_chord_ne hm hc hf⟩
  intro hf p hp hph
  exact cascadeList_reveals _ _ _ (reveal_chord_eq hm hc hf) p hp hph

/-- Witness for C5 on a 2-by-1 board: chording the revealed zero tile
reveals its Concealed neighbour. -/
theorem C5_chord_reveal_witness :
    (getTile (Tiles.reveal [[({ mode := .Revealed, content := .Field 0 } : Tile)],
        [({ mode := .Hidden, content := .Field 0 } : Tile)]] 0 0) 1 0).mode = .Revealed :=
  (C5_chord_reveal _ 0 0 0 (by decide) (by decide)).1 (by decide) (1, 0) (by decide) (by decide)

/-- **C6.** For every size and mine budget, and every outcome of the random
placement (every in-range pick sequence for which construction completes):
the constructed board holds exactly `mine_count` mines, and the tile at the
starting position is never a mine. -/
theorem C6_mine_placement (w h mc : Nat) (start : Nat × Nat)
    (picks : List (Nat × Nat)) (t : Tiles)
    (hpk : ∀ p ∈ picks, p.1 < w ∧ p.2 < h)
    (ht : Tiles.new (w, h) start mc picks = some t) :
    countMines t = mc ∧ (getTile t start.1 start.2).content ≠ .Mine :=
  ⟨(Tiles_new_spec hpk ht).1, (Tiles_new_spec hpk ht).2.1⟩

/-- Witness for C6: a 3-by-1 board with one mine drawn at `(2, 0)`. -/
theorem C6_mine_placement_witness :
    countMines [[({ mode := .Revealed, content := .Field 0 } : Tile)],
      [({ mode := .Revealed, content := .Field 1 } : Tile)],
      [({ mode := .Hidden, content := .Mine } : Tile)]] = 1 ∧
    (getTile [[({ mode := .Revealed, content := .Field 0 } : Tile)],
      [({ mode := .Revealed, content := .Field 1 } : Tile)],
      [({ mode := .Hidden, content := .Mine } : Tile)]] 0 0).content ≠ .Mine :=
  C6_mine_placement 3 1 1 (0, 0) [(2, 0)] _ (by decide) (by decide)

/-- **C7.** Every constructed board is correctly numbered — each `Field n`
tile carries the exact count of Mine-content tiles among its edge-clipped
Moore neighbours — and the subsequent reveal and flag operations change
only tile modes (the contents grid is untouched), so the numbering stays
correct while the match is in progress. -/
theorem C7_numbering_invariant (w h mc : Nat) (start : Nat × Nat)
    (picks : List (Nat × Nat)) (t : Tiles)
    (hpk : ∀ p ∈ picks, p.1 < w ∧ p.2 < h)
    (ht : Tiles.new (w, h) start mc picks = some t) :
    numberingCorrect t ∧
    (∀ (b : Tiles) (x y : Nat), contentsGrid (Tiles.reveal b x y) = contentsGrid b) ∧
    (∀ (b : Tiles) (x y : Nat) (m : TileMode), contentsGrid (setMode b x y m) = contentsGrid b) ∧
    (∀ (b : Tiles) (x y : Nat), numberingCorrect b → numberingCorrect (Tiles.reveal b x y)) ∧
    (∀ (b : Tiles) (x y : Nat) (m : TileMode),
      numberingCorrect b → numberingCorrect (setMode b x y m)) := by
  refine ⟨(Tiles_new_spec hpk ht).2.2.1, contentsGrid_reveal, contentsGrid_setMode, ?_, ?_⟩
  · intro b x y hb
    exact numberingCorrect_of_contentsGrid_eq (contentsGrid_reveal b x y) hb
  · intro b x y m hb
    exact numberingCorrect_of_contentsGrid_eq (contentsGrid_setMode b x y m) hb

/-- Witness for C7: the 3-by-1 board of the C6 witness is correctly
numbered. -/
theorem C7_numbering_invariant_witness :
    numberingCorrect [[({ mode := .Revealed, content := .Field 0 } : Tile)],
      [({ mode := .Revealed, content := .Field 1 } : Tile)],
      [({ mode := .Hidden, content := .Mine } : Tile)]] :=
  (C7_numbering_invariant 3 1 1 (0, 0) [(2, 0)] _ (by decide) (by decide)).1

/-- **C10.** While no board exists (`NotStarted`), `tile_at` returns the
synthetic Concealed/`Field 0` placeholder at *every* coordinate, in-bounds
or not; once a board exists (`InProgress` or `Finished`, board of the
configured size), an out-of-bounds `tile_at` returns no value (the Rust
indexing panic, modelled as `none`). -/
theorem C10_tile_at_bounds (g : Game) (x y : Nat) :
    (g.state = .Blank → g.tile_at x y = some { mode := .Hidden, content := .Field 0 }) ∧
    (∀ t, (g.state = .Ongoing t ∨ g.state = .Finished t) →
      t.length = g.size.1 → (∀ u, u < g.size.1 → (t.getD u []).length = g.size.2) →
      g.size.1 ≤ x ∨ g.size.2 ≤ y → g.tile_at x y = none) := by
  constructor
  · intro h
    simp only [Game.tile_at, h]
  · intro t hstate hlen hrow hoob
    have hbody : (t.get? x).bind (fun row => row.get? y) = none := by
      by_cases hx : x < t.length
      · have hxw : x < g.size.1 := by rw [← hlen]; exact hx
        rcases hoob with hob | hob
        · omega
        · rw [List.get?_eq_getElem?, List.getElem?_eq_getElem hx]
          simp only [Option.some_bind]
          rw [List.get?_eq_getElem?]
          apply List.getElem?_eq_none
          have := hrow x hxw
          rw [← List.getD_eq_getElem _ ([] : List Tile) hx] at *
          omega
      · rw [List.get?_eq_getElem?, List.getElem?_eq_none (Nat.le_of_not_lt hx)]
        rfl
    rcases hstate with h | h
    · simp only [Game.tile_at, h]
      exact hbody
    · simp only [Game.tile_at, h]
      exact hbody

/-- Witness for C10: placeholder before start, `none` out of bounds once a
board exists. -/
theorem C10_tile_at_bounds_witness :
    (Game.new (2, 1) 0).tile_at 9 9 = some { mode := .Hidden, content := .Field 0 } ∧
    (Game.mk (0, 0) (1, 1) (.Ongoing [[{ mode := .Hidden, content := .Field 0 }]]) 0).tile_at
      3 0 = none :=
  ⟨(C10_tile_at_bounds (Game.new (2, 1) 0) 9 9).1 (by decide),
    (C10_tile_at_bounds (Game.mk (0, 0) (1, 1)
        (.Ongoing [[{ mode := .Hidden, content := .Field 0 }]]) 0) 3 0).2
      [[{ mode := .Hidden, content := .Field 0 }]] (Or.inl (by decide)) (by decide)
      (by decide) (Or.inl (by decide))⟩

/-- **C3.** Revealing a Concealed Mine on an `InProgress` match finishes
the match with status `Lost`; after the finish sweep the tripped tile holds
`Mistake TrippedMine`, every other Concealed Mine becomes Revealed with its
content unchanged, every Flagged `Field n` becomes
`Mistake (FlaggedField n)`, and Flagged Mines and (Revealed or Concealed)
Fields are untouched. -/
theorem C3_reveal_mine_loses (g : Game) (t : Tiles) (picks : List (Nat × Nat))
    (hg : g.state = .Ongoing t)
    (hcur : getTile t g.cursor.1 g.cursor.2 = { mode := .Hidden, content := .Mine }) :
    ∃ t2, (g.reveal picks).state = .Finished t2 ∧
      (g.reveal picks).status = .Lost ∧
      getTile t2 g.cursor.1 g.cursor.2 =
        { mode := .Revealed, content := .Mistake .TrippedMine } ∧
      (∀ u v, ¬(u = g.cursor.1 ∧ v = g.cursor.2) →
        getTile t u v = { mode := .Hidden, content := .Mine } →
        getTile t2 u v = { mode := .Revealed, content := .Mine }) ∧
      (∀ u v n, getTile t u v = { mode := .Flagged, content := .Field n } →
        getTile t2 u v = { mode := .Flagged, content := .Mistake (.FlaggedField n) }) ∧
      (∀ u v, getTile t u v = { mode := .Flagged, content := .Mine } →
        getTile t2 u v = getTile t u v) ∧
      (∀ u v n, (getTile t u v = { mode := .Revealed, content := .Field n } ∨
          getTile t u v = { mode := .Hidden, content := .Field n }) →
        getTile t2 u v = getTile t u v) := by
  have hm : (getTile t g.cursor.1 g.cursor.2).mode = .Hidden := by rw [hcur]
  obtain ⟨hx, hy⟩ := mode_hidden_bounds hm
  have hrev : Tiles.reveal t g.cursor.1 g.cursor.2 =
      setMode t g.cursor.1 g.cursor.2 .Revealed := by
    apply reveal_hidden_non_zero hm
    intro n hn
    rw [hcur] at hn
    simp at hn
  have ht1cur : getTile (setMode t g.cursor.1 g.cursor.2 .Revealed) g.cursor.1 g.cursor.2 =
      { mode := .Revealed, content := .Mine } := by
    rw [setMode, getTile_setTile_same _ hx hy, hcur]
  have ht1other : ∀ u v, ¬(u = g.cursor.1 ∧ v = g.cursor.2) →
      getTile (setMode t g.cursor.1 g.cursor.2 .Revealed) u v = getTile t u v := by
    intro u v h
    rw [setMode, getTile_setTile_other _ h]
  have hbx : g.cursor.1 < (setMode t g.cursor.1 g.cursor.2 .Revealed).length := by
    rw [setMode, length_setTile]; exact hx
  have hby : g.cursor.2 <
      ((setMode t g.cursor.1 g.cursor.2 .Revealed).getD g.cursor.1 []).length := by
    rw [setMode, getD_length_setTile]; exact hy
  have hlost : hasLost (setMode t g.cursor.1 g.cursor.2 .Revealed) = true := by
    rw [hasLost, List.any_eq_true]
    exact ⟨getTile (setMode t g.cursor.1 g.cursor.2 .Revealed) g.cursor.1 g.cursor.2,
      getTile_mem_flatten hbx hby, by rw [ht1cur]; rfl⟩
  have hst : (g.reveal picks).state =
      .Finished (finishSweep (setMode t g.cursor.1 g.cursor.2 .Revealed)) := by
    simp only [Game.reveal, hg, hrev, Game.maybe_finish]
    rw [hlost, Bool.or_true, if_pos rfl]
  have hmistake : getTile (finishSweep (setMode t g.cursor.1 g.cursor.2 .Revealed))
      g.cursor.1 g.cursor.2 = { mode := .Revealed, content := .Mistake .TrippedMine } := by
    rw [getTile_finishSweep, ht1cur]
    rfl
  have hstatus : (g.reveal picks).status = .Lost := by
    simp only [Game.status, hst]
    rw [if_pos ?hany]
    case hany =>
      rw [List.any_eq_true]
      refine ⟨getTile (finishSweep (setMode t g.cursor.1 g.cursor.2 .Revealed))
        g.cursor.1 g.cursor.2, getTile_mem_flatten ?_ ?_, by rw [hmistake]; rfl⟩
      · rw [length_finishSweep]; exact hbx
      · rw [getD_length_finishSweep]; exact hby
  refine ⟨finishSweep (setMode t g.cursor.1 g.cursor.2 .Revealed), hst, hstatus, hmistake,
    ?_, ?_, ?_, ?_⟩
  · intro u v hne hmine
    rw [getTile_finishSweep, ht1other u v hne, hmine]
    rfl
  · intro u v n hfl
    by_cases hne : u = g.cursor.1 ∧ v = g.cursor.2
    · obtain ⟨rfl, rfl⟩ := hne
      rw [hcur] at hfl
      simp at hfl
    · rw [getTile_finishSweep, ht1other u v hne, hfl]
      rfl
  · intro u v hfl
    by_cases hne : u = g.cursor.1 ∧ v = g.cursor.2
    · obtain ⟨rfl, rfl⟩ := hne
      rw [hcur] at hfl
      simp at hfl
    · rw [getTile_finishSweep, ht1other u v hne, hfl]
      rfl
  · intro u v n hf
    by_cases hne : u = g.cursor.1 ∧ v = g.cursor.2
    · obtain ⟨rfl, rfl⟩ := hne
      rw [hcur] at hf
      rcases hf with hf | hf <;> simp at hf
    · rcases hf with hf | hf <;> rw [getTile_finishSweep, ht1other u v hne, hf] <;> rfl

/-- Witness for C3: revealing the Concealed Mine of a 2-by-1 in-progress
match reports `Lost`. -/
theorem C3_reveal_mine_loses_witness :
    ((Game.mk (0, 0) (2, 1)
      (.Ongoing [[{ mode := .Hidden, content := .Mine }],
        [{ mode := .Revealed, content := .Field 1 }]]) 1).reveal []).status = .Lost := by
  obtain ⟨t2, _, hstatus, _⟩ := C3_reveal_mine_loses
    (Game.mk (0, 0) (2, 1)
      (.Ongoing [[{ mode := .Hidden, content := .Mine }],
        [{ mode := .Revealed, content := .Field 1 }]]) 1)
    [[{ mode := .Hidden, content := .Mine }], [{ mode := .Revealed, content := .Field 1 }]]
    [] rfl (by decide)
  exact hstatus

/-- **C4.** (i) If after the board-level reveal every `Field`-content tile
is Revealed, no tile is a Revealed Mine, and (as in every reachable
in-progress state, see C8) no tile already holds `Mistake` content, then
`reveal()` finishes the match and `status` reports `Won`.  (ii) A
`Finished` match reports `Lost` exactly when some tile holds `Mistake`
content after the sweep, and `Won` otherwise. -/
theorem C4_win_detection :
    (∀ (g : Game) (t : Tiles) (picks : List (Nat × Nat)), g.state = .Ongoing t →
      (∀ tile ∈ (Tiles.reveal t g.cursor.1 g.cursor.2).flatten,
        (tile.content.isFieldB = true → tile.mode = .Revealed) ∧
        ¬(tile.mode = .Revealed ∧ tile.content = .Mine) ∧
        tile.content.isMistakeB = false) →
      ∃ t2, (g.reveal picks).state = .Finished t2 ∧ (g.reveal picks).status = .Won) ∧
    (∀ (g : Game) (t : Tiles), g.state = .Finished t →
      (g.status = .Lost ↔ ∃ tile ∈ t.flatten, tile.content.isMistakeB = true)) := by
  constructor
  · intro g t picks hg hyp
    have hwon : hasWon (Tiles.reveal t g.cursor.1 g.cursor.2) = true := by
      rw [hasWon, List.all_eq_true]
      intro tile htile
      obtain ⟨h1, _, _⟩ := hyp tile htile
      by_cases hf : tile.content.isFieldB = true
      · rw [h1 hf]
        simp [TileMode.isRevealedB]
      · rw [Bool.eq_false_iff.mpr hf]
        simp
    have hst : (g.reveal picks).state =
        .Finished (finishSweep (Tiles.reveal t g.cursor.1 g.cursor.2)) := by
      simp only [Game.reveal, hg, Game.maybe_finish]
      rw [hwon, Bool.true_or, if_pos rfl]
    refine ⟨finishSweep (Tiles.reveal t g.cursor.1 g.cursor.2), hst, ?_⟩
    simp only [Game.status, hst]
    rw [if_neg ?hnone]
    case hnone =>
      intro hany
      rw [List.any_eq_true] at hany
      obtain ⟨tile2, ht2, hmis⟩ := hany
      rw [finishSweep, ← List.map_flatten] at ht2
      rw [List.mem_map] at ht2
      obtain ⟨tile, htmem, hteq⟩ := ht2
      obtain ⟨h1, h2, h3⟩ := hyp tile htmem
      rw [← hteq] at hmis
      obtain ⟨md, ct⟩ := tile
      cases ct with
      | Field n =>
        have hmd : md = .Revealed := h1 rfl
        subst hmd
        simp [sweepTile, TileContent.isMistakeB] at hmis
      | Mine =>
        cases md with
        | Revealed => exact h2 ⟨rfl, rfl⟩
        | Flagged => simp [sweepTile, TileContent.isMistakeB] at hmis
        | Hidden => simp [sweepTile, TileContent.isMistakeB] at hmis
      | Mistake m => simp [TileContent.isMistakeB] at h3
  · intro g t hg
    simp only [Game.status, hg]
    by_cases hany : (t.flatten.any fun tile => tile.content.isMistakeB) = true
    · rw [if_pos hany]
      exact ⟨fun _ => List.any_eq_true.mp hany, fun _ => rfl⟩
    · rw [if_neg hany]
      constructor
      · intro h
        exact absurd h (by simp)
      · intro hex
        exact absurd (List.any_eq_true.mpr hex) hany

/-- Witness for C4: on the fully-revealed 1-by-1 zero-mine board, a further
reveal finishes the match as `Won`. -/
theorem C4_win_detection_witness :
    ∃ t2, ((Game.mk (0, 0) (1, 1)
        (.Ongoing [[{ mode := .Revealed, content := .Field 0 }]]) 0).reveal []).state =
      .Finished t2 ∧
    ((Game.mk (0, 0) (1, 1)
        (.Ongoing [[{ mode := .Revealed, content := .Field 0 }]]) 0).reveal []).status = .Won :=
  C4_win_detection.1
    (Game.mk (0, 0) (1, 1) (.Ongoing [[{ mode := .Revealed, content := .Field 0 }]]) 0)
    [[{ mode := .Revealed, content := .Field 0 }]] [] rfl (by decide)
